import Mathlib

/-!
# Shallow embedding of the Huffman compression program (`main.py`)

The program's symbols are bytes, modelled as `Nat`; Python's bit-strings of
`'0'`/`'1'` characters are modelled as `List Bool` (`false` = `'0'`,
`true` = `'1'`); Python dicts are modelled as insertion-ordered association
lists (updates keep the original position, new keys are appended), which is
standard CPython dict behaviour.

`build_huffman_tree` uses `heapq` with `HuffmanNode.__lt__` comparing
frequencies only, so the CPython `heapq` routines (`heappush`, `heappop`,
`_siftdown`, `_siftup`) are embedded verbatim over `List HuffmanNode`,
with the element comparison `a.freq < b.freq`.  The `while` loops inside
`_siftdown`/`_siftup` are written with an explicit fuel argument so that the
definitions stay structurally recursive (and hence compute by `decide`); the
fuel passed at every call site is an upper bound on the number of loop
iterations (`pos` for `_siftdown`, `len(heap)` for `_siftup`, `len(heap)`
for the merge loop), so the fuel never runs out on the executions the
program performs.
-/

/-- Huffman tree node: the Python class `HuffmanNode` has `char = None`
exactly on internal (merged) nodes, which always carry two children, and
`char ≠ None` on leaves, which carry none; the inductive captures the two
reachable shapes. -/
inductive HuffmanNode where
  | leaf (char : Nat) (freq : Nat)
  | internal (freq : Nat) (left right : HuffmanNode)
deriving DecidableEq, Repr

/-- Frequency of a node (`self.freq`). -/
def HuffmanNode.freq : HuffmanNode → Nat
  | .leaf _ f => f
  | .internal f _ _ => f

/-- Default node used for (never-taken) out-of-range list reads. -/
def dfltNode : HuffmanNode := .leaf 0 0

/-- CPython `heapq._siftdown(heap, startpos, pos)` loop body; `newitem` is the
value read from `heap[pos]` before the loop starts.  The loop walks `pos` down
to `startpos` through parent positions, so `pos` itself bounds the iteration
count and is supplied as the fuel. -/
def siftdownLoop : Nat → List HuffmanNode → Nat → HuffmanNode → Nat → List HuffmanNode
  | 0, heap, _, newitem, pos => heap.set pos newitem
  | fuel + 1, heap, startpos, newitem, pos =>
    if startpos < pos then
      let parentpos := (pos - 1) / 2
      let parent := heap.getD parentpos dfltNode
      if newitem.freq < parent.freq then
        siftdownLoop fuel (heap.set pos parent) startpos newitem parentpos
      else
        heap.set pos newitem
    else
      heap.set pos newitem

/-- CPython `heapq._siftup(heap, pos)` loop (with `startpos`/`newitem`
already extracted); follows a path of children, so `len(heap)` bounds the
iteration count and is supplied as the fuel. -/
def siftupLoop : Nat → List HuffmanNode → Nat → HuffmanNode → Nat → List HuffmanNode
  | 0, heap, startpos, newitem, pos => siftdownLoop pos (heap.set pos newitem) startpos newitem pos
  | fuel + 1, heap, startpos, newitem, pos =>
    let endpos := heap.length
    let childpos := 2 * pos + 1
    if childpos < endpos then
      let rightpos := childpos + 1
      let childpos :=
        if rightpos < endpos ∧
            ¬ (heap.getD childpos dfltNode).freq < (heap.getD rightpos dfltNode).freq then
          rightpos
        else childpos
      siftupLoop fuel (heap.set pos (heap.getD childpos dfltNode)) startpos newitem childpos
    else
      siftdownLoop pos (heap.set pos newitem) startpos newitem pos

/-- CPython `heapq.heappush`: append, then sift the new element down to the
root region (`_siftdown(heap, 0, len(heap)-1)`). -/
def heappush (heap : List HuffmanNode) (item : HuffmanNode) : List HuffmanNode :=
  siftdownLoop heap.length (heap ++ [item]) 0 item heap.length

/-- CPython `heapq.heappop`: pop the last element; if the heap is still
non-empty, the root is returned and the last element is sifted up from
position 0.  Popping an empty heap raises in Python, modelled as `none`. -/
def heappop (heap : List HuffmanNode) : Option (HuffmanNode × List HuffmanNode) :=
  match heap.getLast? with
  | none => none
  | some lastelt =>
    let rest := heap.dropLast
    match rest with
    | [] => some (lastelt, [])
    | x :: _ =>
      let h2 := rest.set 0 lastelt
      some (x, siftupLoop h2.length h2 0 (h2.getD 0 dfltNode) 0)

/-- One `frequency_table[char] = frequency_table.get(char, 0) + 1` step on the
insertion-ordered dict. -/
def dictIncr : List (Nat × Nat) → Nat → List (Nat × Nat)
  | [], c => [(c, 1)]
  | (k, v) :: rest, c => if k = c then (k, v + 1) :: rest else (k, v) :: dictIncr rest c

/-- `build_frequency_table(data)` from `main.py`. -/
def build_frequency_table (data : List Nat) : List (Nat × Nat) :=
  data.foldl dictIncr []

/-- The `while len(heap) > 1` merge loop of `build_huffman_tree`; each
iteration shrinks the heap by one, so the initial heap length bounds the
iteration count and is supplied as the fuel. -/
def buildLoop : Nat → List HuffmanNode → List HuffmanNode
  | 0, heap => heap
  | fuel + 1, heap =>
    if 1 < heap.length then
      match heappop heap with
      | none => heap
      | some (node1, h1) =>
        match heappop h1 with
        | none => h1
        | some (node2, h2) =>
          buildLoop fuel (heappush h2 (HuffmanNode.internal (node1.freq + node2.freq) node1 node2))
    else heap

/-- `build_huffman_tree(frequency_table)` from `main.py`: seed the heap with
one leaf per table entry (in dict order), merge until one node remains;
an empty table reports the "nenhum símbolo" error and returns `None`,
modelled as `none`. -/
def build_huffman_tree (frequency_table : List (Nat × Nat)) : Option HuffmanNode :=
  let heap := frequency_table.foldl (fun h p => heappush h (HuffmanNode.leaf p.1 p.2)) []
  match buildLoop heap.length heap with
  | [] => none
  | x :: _ => some x

/-- Dict assignment `encoding_table[c] = code` (update in place or append). -/
def dictInsert : List (Nat × List Bool) → Nat → List Bool → List (Nat × List Bool)
  | [], c, code => [(c, code)]
  | (k, v) :: rest, c, code =>
    if k = c then (k, code) :: rest else (k, v) :: dictInsert rest c code

/-- The recursive `build_encoding_helper(node, code)` from `main.py`: record
`code` at nodes whose `char` is not `None` (the leaves), recurse left with
`code + '0'` and right with `code + '1'`. -/
def build_encoding_helper : HuffmanNode → List Bool → List (Nat × List Bool) → List (Nat × List Bool)
  | .leaf c _, code, table => dictInsert table c code
  | .internal _ l r, code, table =>
    build_encoding_helper r (code ++ [true]) (build_encoding_helper l (code ++ [false]) table)

/-- `build_encoding_table(huffman_tree)` from `main.py`; called with the
result of `build_huffman_tree`, which is `None` when the alphabet was empty
(the helper then returns at once, leaving the table empty). -/
def build_encoding_table : Option HuffmanNode → List (Nat × List Bool)
  | none => []
  | some t => build_encoding_helper t [] []

/-- Dict read `encoding_table[c]` used by the encoder; every symbol of the
stream is a key of the table built from that same stream, so the `KeyError`
branch is never taken there (modelled as the empty code). -/
def dictGet : List (Nat × List Bool) → Nat → List Bool
  | [], _ => []
  | (k, v) :: rest, c => if k = c then v else dictGet rest c

/-- `''.join(encoding_table[char] for char in data)` from `compress_file`. -/
def encode_data (table : List (Nat × List Bool)) (data : List Nat) : List Bool :=
  (data.map (fun c => dictGet table c)).flatten

/-- `int(byte, 2)` on an 8-character chunk: most-significant-bit-first value. -/
def bitsToNat (bits : List Bool) : Nat :=
  bits.foldl (fun a b => 2 * a + (if b then 1 else 0)) 0

/-- The `for i in range(0, len(encoded_data), 8)` packing loop of
`compress_file`; consumes 8 bits per iteration, so the bit-string length
bounds the iteration count and is supplied as the fuel. -/
def pack_bytes : Nat → List Bool → List Nat
  | _, [] => []
  | 0, _ :: _ => []
  | fuel + 1, b :: bits => bitsToNat ((b :: bits).take 8) :: pack_bytes fuel ((b :: bits).drop 8)

/-- The compression pipeline of `compress_file` after the input has been
read (and right-stripped): build the table from the data, concatenate the
codes, pad with `8 - len % 8` zero bits, pack MSB-first into bytes; the
artifact is the header byte (the padding count) and the payload bytes. -/
def compress_pipeline (data : List Nat) : Nat × List Nat :=
  let encoding_table := build_encoding_table (build_huffman_tree (build_frequency_table data))
  let encoded_data := encode_data encoding_table data
  let padding := 8 - encoded_data.length % 8
  let padded := encoded_data ++ List.replicate padding false
  (padding, pack_bytes padded.length padded)

/-- Python `bytes.rstrip()` membership test: ASCII whitespace bytes
`b' \t\n\r\x0b\x0c'`. -/
def isWs (b : Nat) : Bool :=
  b == 9 || b == 10 || b == 11 || b == 12 || b == 13 || b == 32

/-- Python `data.rstrip()`: drop trailing ASCII-whitespace bytes. -/
def rstrip (data : List Nat) : List Nat :=
  (data.reverse.dropWhile isWs).reverse

/-- `compress_file` as a function of the raw file contents: the source does
`data = file.read().rstrip()` before any analysis or encoding. -/
def compress_file (raw : List Nat) : Nat × List Nat :=
  compress_pipeline (rstrip raw)

/-- The encoding table rebuilt at decode time by `main` (`-d` branch):
`build_encoding_table(build_huffman_tree(build_frequency_table(
open(input_file, 'rb').read().rstrip())))`. -/
def decode_time_table (raw : List Nat) : List (Nat × List Bool) :=
  build_encoding_table (build_huffman_tree (build_frequency_table (rstrip raw)))

/-- `format(byte, '08b')` for a byte value: its 8 bits, MSB first (payload
bytes produced by the packer are always below 256). -/
def byteToBits (b : Nat) : List Bool :=
  [b.testBit 7, b.testBit 6, b.testBit 5, b.testBit 4,
   b.testBit 3, b.testBit 2, b.testBit 1, b.testBit 0]

/-- `encoded_data[:-padding]` from `decompress_file`.  Python slicing makes
`[:-0]` the empty string, so a zero padding discards everything; for any
padding ≥ 1 exactly that many trailing bits are dropped. -/
def strip_padding (bits : List Bool) (padding : Nat) : List Bool :=
  if padding = 0 then [] else bits.take (bits.length - padding)

/-- Membership-plus-read on the table the decoder walks: the candidate
bit-string is looked up among the entries (`current_code in encoding_table`
followed by `encoding_table[current_code]`), on the code → symbol view of
the table (the spec's reverse code table, its §3/§4.5). -/
def rdictGet : List (List Bool × Nat) → List Bool → Option Nat
  | [], _ => none
  | (k, v) :: rest, code => if k = code then some v else rdictGet rest code

/-- The decoding walk of `decompress_file`: append each bit to
`current_code`; on an exact table match emit the symbol and reset the
candidate.  Returns the decoded symbols together with the final (possibly
non-empty) candidate; the source keeps only the decoded symbols. -/
def decode_loop (table : List (List Bool × Nat)) :
    List Bool → List Bool → List Nat → List Nat × List Bool
  | [], current_code, decoded => (decoded, current_code)
  | bit :: bits, current_code, decoded =>
    let current := current_code ++ [bit]
    match rdictGet table current with
    | some ch => decode_loop table bits [] (decoded ++ [ch])
    | none => decode_loop table bits current decoded

/-- `decompress_file` after the artifact has been read: expand every payload
byte to its 8 bits MSB-first, drop the trailing padding bits, and run the
decoding walk, keeping the decoded symbols (the leftover candidate is
discarded, as in the source). -/
def decompress_data (table : List (List Bool × Nat)) (padding : Nat) (payload : List Nat) :
    List Nat :=
  let bits := (payload.map byteToBits).flatten
  let stripped := strip_padding bits padding
  (decode_loop table stripped [] []).1

/-- The bit-string the decoding walk actually consumes: payload bytes
expanded MSB-first with the trailing padding bits dropped. -/
def stripped_bits (padding : Nat) (payload : List Nat) : List Bool :=
  strip_padding ((payload.map byteToBits).flatten) padding

/-- The decoding walk of `decompress_file` with its final state exposed: the
decoded symbols together with the leftover candidate (which the source
silently drops). -/
def decoder_state (table : List (List Bool × Nat)) (padding : Nat) (payload : List Nat) :
    List Nat × List Bool :=
  decode_loop table (stripped_bits padding payload) [] []

/-- The code → symbol view of an encoding table, under which the decoding
walk's candidate lookups are meaningful. -/
def reverse_table (table : List (Nat × List Bool)) : List (List Bool × Nat) :=
  table.map (fun p => (p.2, p.1))

/-- Full round trip at the granularity of the claims: compress `data` with
the table built from `data` itself, then decompress the artifact with the
same table. -/
def roundtrip (data : List Nat) : List Nat :=
  let table := build_encoding_table (build_huffman_tree (build_frequency_table data))
  let artifact := compress_pipeline data
  decompress_data (reverse_table table) artifact.1 artifact.2

/-- The `(char, freq)` pairs at the leaves, left to right. -/
def HuffmanNode.leavesOf : HuffmanNode → List (Nat × Nat)
  | .leaf c f => [(c, f)]
  | .internal _ l r => l.leavesOf ++ r.leavesOf

/-- Number of leaves. -/
def HuffmanNode.countLeaves : HuffmanNode → Nat
  | .leaf _ _ => 1
  | .internal _ l r => l.countLeaves + r.countLeaves

/-- Number of internal (merged) nodes. -/
def HuffmanNode.countInternal : HuffmanNode → Nat
  | .leaf _ _ => 0
  | .internal _ l r => l.countInternal + r.countInternal + 1

/-- Every internal node's frequency is the sum of its children's. -/
def HuffmanNode.sumOk : HuffmanNode → Bool
  | .leaf _ _ => true
  | .internal f l r => (f = l.freq + r.freq : Bool) && l.sumOk && r.sumOk

/-- Every leaf carries a positive frequency. -/
def HuffmanNode.leavesPos : HuffmanNode → Bool
  | .leaf _ f => decide (0 < f)
  | .internal _ l r => l.leavesPos && r.leavesPos

/-- All `(char, freq)` leaf pairs across the nodes of a heap. -/
def heapLeaves (heap : List HuffmanNode) : List (Nat × Nat) :=
  (heap.map HuffmanNode.leavesOf).flatten

/-- The invariants claimed of the tree built from a frequency table: every
leaf frequency positive, every internal node's frequency the sum of its
children's, exactly `k` leaves and `k - 1` internal nodes for a table of `k`
entries. -/
def tree_invariants_hold (t : List (Nat × Nat)) : Bool :=
  match build_huffman_tree t with
  | none => false
  | some root =>
    root.leavesPos && root.sumOk
      && (root.countLeaves == t.length) && (root.countInternal == t.length - 1)

/-- Every count of a frequency table is positive (the data-model invariant
of tables produced by `build_frequency_table`). -/
def all_counts_pos (t : List (Nat × Nat)) : Bool :=
  t.all (fun p => decide (0 < p.2))

/-- `beginsWith v w` holds when the bit-string `v` starts with the block `w`. -/
def beginsWith : List Bool → List Bool → Bool
  | _, [] => true
  | [], _ :: _ => false
  | a :: v, b :: w => (a == b) && beginsWith v w

/-- No entry's code is a leading block of a distinct entry's code
(the table is a code of the kind the spec calls prefix-free). -/
def noCodeStartsAnother (table : List (Nat × List Bool)) : Bool :=
  table.all (fun p => table.all (fun q => p.1 == q.1 || !(beginsWith q.2 p.2)))

/-- The `(char, root-to-leaf path)` pairs produced by the traversal of
`build_encoding_helper`, in traversal order, starting from the accumulated
code `pre`. -/
def pathCodes : HuffmanNode → List Bool → List (Nat × List Bool)
  | .leaf c _, pre => [(c, pre)]
  | .internal _ l r, pre => pathCodes l (pre ++ [false]) ++ pathCodes r (pre ++ [true])

/-- The CPython binary-min-heap shape invariant on the backing list: every
element is at least its parent (comparison by `freq`, as `HuffmanNode.__lt__`
compares). -/
def IsHeap (h : List HuffmanNode) : Prop :=
  ∀ i, 0 < i → i < h.length →
    (h.getD ((i - 1) / 2) dfltNode).freq ≤ (h.getD i dfltNode).freq

/-- Total frequency of the leaves below a node. -/
def HuffmanNode.leafWeight (T : HuffmanNode) : Nat :=
  (T.leavesOf.map Prod.snd).sum

/-- Weighted external path length of a tree whose root sits at depth `k`:
each leaf contributes its frequency times its depth. -/
def treeCost : HuffmanNode → Nat → Nat
  | .leaf _ f, k => f * k
  | .internal _ l r, k => treeCost l (k + 1) + treeCost r (k + 1)

/-- Total encoded bit length of a code assignment `C` over a frequency
table: Σ frequency(s) × length(C s). -/
def codeCostF (C : Nat → List Bool) (t : List (Nat × Nat)) : Nat :=
  (t.map (fun p => p.2 * (C p.1).length)).sum

/-- Cost of the greedy merge recurrence on a sorted weight list: repeatedly
take the two smallest weights, pay their sum, and re-insert it. -/
def mergeCostGo : Nat → List Nat → Nat
  | _, [] => 0
  | _, [_] => 0
  | 0, _ :: _ :: _ => 0
  | fuel + 1, a :: b :: rest =>
    (a + b) + mergeCostGo fuel (List.orderedInsert (· ≤ ·) (a + b) rest)

/-- Cost of the greedy merge recurrence on an arbitrary weight list. -/
def mergeCost (ws : List Nat) : Nat :=
  mergeCostGo ws.length (ws.insertionSort (· ≤ ·))

/-- A code assignment is prefix-free on a set of symbols: no symbol's code
is a leading block of a distinct symbol's code. -/
def noCodeStartsAnotherFn (C : Nat → List Bool) (syms : List Nat) : Prop :=
  ∀ c1 ∈ syms, ∀ c2 ∈ syms, c1 ≠ c2 → beginsWith (C c2) (C c1) = false

/-- Transposition of two symbols. -/
def swapSym (a b x : Nat) : Nat :=
  if x = a then b else if x = b then a else x

/-- The code assignment with the codewords of `a` and `b` exchanged. -/
def swapC (C : Nat → List Bool) (a b : Nat) : Nat → List Bool :=
  fun x => C (swapSym a b x)

/-- The sibling codeword: same word with the last bit flipped. -/
def sibWord (w : List Bool) : List Bool :=
  w.dropLast ++ [! w.getLastD false]

/-- A symbol not occurring among the keys of a table. -/
def freshSym (t : List (Nat × Nat)) : Nat :=
  (t.map Prod.fst).foldr (fun a b => max a b) 0 + 1

/-!
## Theorems

First the concrete, fully evaluated facts (the worked example, the
counterexamples and the degenerate-alphabet behaviour), then the decoding
walk's invariants, the `rstrip` behaviour, and the structural development
used by the round-trip, prefix-freedom and tree-shape claims.
-/

/-- C5: `build_frequency_table` on the empty input yields the empty table,
and `build_huffman_tree` on the empty table reports the empty-alphabet
failure (it prints the "nenhum símbolo" diagnostic and returns `None`,
modelled as `none`) rather than crashing or silently returning a tree. -/
theorem C5_empty_input :
    build_frequency_table [] = [] ∧ build_huffman_tree [] = none := by
  decide

/-- C2 (code bug): on the single-symbol input `b"aaa"` the code table built
from the degenerate single-leaf tree maps the symbol 97 to the EMPTY
bit-string, not to a non-empty one-bit code, and the round trip returns the
empty sequence instead of the input. -/
theorem C2_single_symbol_empty_code :
    build_encoding_table (build_huffman_tree (build_frequency_table [97, 97, 97]))
        = [(97, [])] ∧
      (dictGet (build_encoding_table (build_huffman_tree (build_frequency_table [97, 97, 97])))
        97).length = 0 ∧
      roundtrip [97, 97, 97] = [] := by
  decide

/-- C9: the worked example on `b"aaabbc"`: frequencies {a:3, b:2, c:1} in
first-occurrence order; the tree merges c and b first (1 + 2 = 3) and then
that node with a (3 + 3 = 6); codes a = "0", c = "10", b = "11" (lengths
1, 2, 2); the concatenated bit-string is 000111110 (9 bits), the padding is
7, the padded string is 16 bits, and the artifact is header byte 7 with the
2 payload bytes [31, 0]. -/
theorem C9_example_aaabbc :
    build_frequency_table [97, 97, 97, 98, 98, 99] = [(97, 3), (98, 2), (99, 1)] ∧
      build_huffman_tree [(97, 3), (98, 2), (99, 1)]
        = some (.internal 6 (.leaf 97 3) (.internal 3 (.leaf 99 1) (.leaf 98 2))) ∧
      build_encoding_table (build_huffman_tree (build_frequency_table [97, 97, 97, 98, 98, 99]))
        = [(97, [false]), (99, [true, false]), (98, [true, true])] ∧
      encode_data [(97, [false]), (99, [true, false]), (98, [true, true])]
          [97, 97, 97, 98, 98, 99]
        = [false, false, false, true, true, true, true, true, false] ∧
      (encode_data [(97, [false]), (99, [true, false]), (98, [true, true])]
          [97, 97, 97, 98, 98, 99]).length = 9 ∧
      compress_pipeline [97, 97, 97, 98, 98, 99] = (7, [31, 0]) ∧
      (compress_pipeline [97, 97, 97, 98, 98, 99]).2.length = 2 := by
  decide

/-- C1 is refuted as stated: on the non-empty input `b"a"` the round trip
returns the empty sequence, not the input (the single-leaf tree yields the
empty code, so nothing is ever emitted). -/
theorem C1_counterexample : roundtrip [97] ≠ [97] := by
  decide

/-- C3 is refuted as stated: on `b"aaaabbbb"` the encoded bit-string length
is 8, so the source's `8 - len % 8` padding is 8, outside [0, 7]. -/
theorem C3_counterexample :
    (compress_pipeline [97, 97, 97, 97, 98, 98, 98, 98]).1 = 8 ∧
      ¬ (compress_pipeline [97, 97, 97, 97, 98, 98, 98, 98]).1 ≤ 7 := by
  decide

/-- C4 is refuted as stated: with the one-entry reverse table "0" → 97 and
the artifact (header 7, payload [128]) the stripped bit-string is the single
bit 1; the walk exhausts it with the non-empty, non-matching candidate [1]
left over, and the decoder returns the plain result [] — its return type has
no failure case at all — rather than reporting a malformed stream. -/
theorem C4_counterexample :
    (decode_loop [([false], 97)]
        (strip_padding ((([128] : List Nat).map byteToBits).flatten) 7) [] []).2
      = [true] ∧
      rdictGet [([false], 97)] [true] = none ∧
      decompress_data [([false], 97)] 7 [128] = [] := by
  decide

/-- After any run of the decoding walk, a non-empty leftover candidate
matches no table entry: every bit appended to the candidate was immediately
followed by a (failed) table lookup. -/
theorem decode_loop_leftover_unmatched (table : List (List Bool × Nat)) :
    ∀ (bits current : List Bool) (acc : List Nat),
      (current ≠ [] → rdictGet table current = none) →
      (decode_loop table bits current acc).2 ≠ [] →
      rdictGet table (decode_loop table bits current acc).2 = none := by
  intro bits
  induction bits with
  | nil =>
      intro current acc h hne
      simp only [decode_loop] at hne ⊢
      exact h hne
  | cons b bs ih =>
      intro current acc h hne
      simp only [decode_loop] at hne ⊢
      cases hm : rdictGet table (current ++ [b]) with
      | some ch =>
          rw [hm] at hne
          exact ih [] (acc ++ [ch]) (fun hc => absurd rfl hc) hne
      | none =>
          rw [hm] at hne
          exact ih (current ++ [b]) acc (fun _ => hm) hne

/-- The leftover candidate of the decoding walk is a trailing segment of the
consumed bit-string (together with the pending candidate it started with). -/
theorem decode_loop_leftover_trailing (table : List (List Bool × Nat)) :
    ∀ (bits current : List Bool) (acc : List Nat),
      ∃ u, u ++ (decode_loop table bits current acc).2 = current ++ bits := by
  intro bits
  induction bits with
  | nil =>
      intro current acc
      exact ⟨[], by simp [decode_loop]⟩
  | cons b bs ih =>
      intro current acc
      simp only [decode_loop]
      cases hm : rdictGet table (current ++ [b]) with
      | some ch =>
          obtain ⟨u, hu⟩ := ih [] (acc ++ [ch])
          exact ⟨current ++ [b] ++ u, by simp only [List.append_assoc, hu]; simp⟩
      | none =>
          obtain ⟨u, hu⟩ := ih (current ++ [b]) acc
          exact ⟨u, by simp only [hu]; simp⟩

/-- C4, corrected: the decoder has no failure channel at all.  When the
stripped bit-string is exhausted with a non-empty candidate left over, that
candidate matches no entry of the reverse code table, it is exactly the
trailing segment of the bit-string that went undecoded, and
`decompress_file` still returns the symbols decoded so far, silently
discarding the remainder (no MalformedStream condition exists in the code). -/
theorem C4_silent_discard (table : List (List Bool × Nat)) (padding : Nat)
    (payload : List Nat) (h : (decoder_state table padding payload).2 ≠ []) :
    rdictGet table (decoder_state table padding payload).2 = none ∧
      (decoder_state table padding payload).2
        = (stripped_bits padding payload).drop
            ((stripped_bits padding payload).length
              - (decoder_state table padding payload).2.length) ∧
      decompress_data table padding payload = (decoder_state table padding payload).1 := by
  refine ⟨?_, ?_, rfl⟩
  · exact decode_loop_leftover_unmatched table (stripped_bits padding payload) [] []
      (fun hc => absurd rfl hc) h
  · obtain ⟨u, hu⟩ :=
      decode_loop_leftover_trailing table (stripped_bits padding payload) [] []
    simp only [List.nil_append] at hu
    have hds : decoder_state table padding payload
        = decode_loop table (stripped_bits padding payload) [] [] := rfl
    rw [hds]
    have hlen : u.length
        = (stripped_bits padding payload).length
          - (decode_loop table (stripped_bits padding payload) [] []).2.length := by
      have h2 := congrArg List.length hu
      simp only [List.length_append] at h2
      omega
    rw [← hlen]
    conv_rhs => rw [← hu]
    exact (List.drop_left u _).symm

/-- Witness for `C4_silent_discard` at the concrete table "0" → 97 and
artifact (header 7, payload [128]). -/
theorem C4_silent_discard_witness :
    (decoder_state [([false], 97)] 7 [128]).2 ≠ [] ∧
      (rdictGet [([false], 97)] (decoder_state [([false], 97)] 7 [128]).2 = none ∧
        (decoder_state [([false], 97)] 7 [128]).2
          = (stripped_bits 7 [128]).drop
              ((stripped_bits 7 [128]).length
                - (decoder_state [([false], 97)] 7 [128]).2.length) ∧
        decompress_data [([false], 97)] 7 [128] = (decoder_state [([false], 97)] 7 [128]).1) :=
  ⟨by decide, C4_silent_discard [([false], 97)] 7 [128] (by decide)⟩

/-- Appending one ASCII-whitespace byte does not change the `rstrip` result. -/
theorem rstrip_append_ws (raw : List Nat) (w : Nat) (hw : isWs w = true) :
    rstrip (raw ++ [w]) = rstrip raw := by
  unfold rstrip
  rw [List.reverse_append]
  simp [List.dropWhile_cons, hw]

/-- `rstrip` never lengthens its input. -/
theorem rstrip_length_le (raw : List Nat) : (rstrip raw).length ≤ raw.length := by
  unfold rstrip
  simpa using (List.dropWhile_sublist (l := raw.reverse) (p := isWs)).length_le

/-- C10: `compress_file` (and the decode-time table rebuild in `main`'s `-d`
branch) right-strips the raw bytes before any analysis or encoding, so an
input with a trailing ASCII-whitespace byte compresses to exactly the same
artifact as the input without it, the analyzed data differs from the raw
input, and the rebuilt decode-time table is likewise unchanged — the
trailing whitespace is never represented in the artifact. -/
theorem C10_rstrip_strips_trailing_whitespace (raw : List Nat) (w : Nat)
    (hw : isWs w = true) :
    compress_file (raw ++ [w]) = compress_file raw ∧
      rstrip (raw ++ [w]) ≠ raw ++ [w] ∧
      decode_time_table (raw ++ [w]) = decode_time_table raw := by
  have h := rstrip_append_ws raw w hw
  refine ⟨?_, ?_, ?_⟩
  · unfold compress_file
    rw [h]
  · intro hEq
    have h1 := rstrip_length_le raw
    have h2 := congrArg List.length hEq
    rw [h] at h2
    simp only [List.length_append, List.length_cons, List.length_nil] at h2
    omega
  · unfold decode_time_table
    rw [h]

/-- Witness for `C10_rstrip_strips_trailing_whitespace` on `b"a "`. -/
theorem C10_rstrip_strips_trailing_whitespace_witness :
    isWs 32 = true ∧
      (compress_file ([97] ++ [32]) = compress_file [97] ∧
        rstrip ([97] ++ [32]) ≠ [97] ++ [32] ∧
        decode_time_table ([97] ++ [32]) = decode_time_table [97]) :=
  ⟨by decide, C10_rstrip_strips_trailing_whitespace [97] 32 (by decide)⟩

/-- Replacing position `k` by `a` after pulling the old element `t[k]` to the
front is a permutation of pushing `a` to the front. -/
theorem getD_cons_set_perm {α : Type} (d : α) :
    ∀ (t : List α) (k : Nat) (a : α), k < t.length →
      (t.getD k d :: t.set k a).Perm (a :: t) := by
  intro t
  induction t with
  | nil => intro k a h; simp at h
  | cons y s ih =>
      intro k a h
      cases k with
      | zero =>
          simp only [List.getD_cons_zero, List.set_cons_zero]
          exact List.Perm.swap a y s
      | succ k =>
          have hk : k < s.length := by simpa using h
          simp only [List.getD_cons_succ, List.set_cons_succ]
          exact ((List.Perm.swap y (s.getD k d) (s.set k a)).trans
            ((ih k a hk).cons y)).trans (List.Perm.swap a y s)

/-- Swapping which of `a`, `x` goes to the front and which into slot `m` is a
permutation. -/
theorem cons_set_swap_perm {α : Type} :
    ∀ (t : List α) (m : Nat) (a x : α), m < t.length →
      (a :: t.set m x).Perm (x :: t.set m a) := by
  intro t
  induction t with
  | nil => intro m a x h; simp at h
  | cons y s ih =>
      intro m a x h
      cases m with
      | zero =>
          simp only [List.set_cons_zero]
          exact List.Perm.swap x a s
      | succ m =>
          have hm : m < s.length := by simpa using h
          simp only [List.set_cons_succ]
          exact ((List.Perm.swap y a (s.set m x)).trans
            ((ih m a x hm).cons y)).trans (List.Perm.swap x y (s.set m a))

/-- Duplicating `l[j]` into slot `i` and then overwriting slot `j` with `a`
is, up to permutation, just overwriting slot `i` with `a`. -/
theorem set_set_getD_perm {α : Type} (d : α) :
    ∀ (l : List α) (i j : Nat) (a : α), i ≠ j → i < l.length → j < l.length →
      ((l.set i (l.getD j d)).set j a).Perm (l.set i a) := by
  intro l
  induction l with
  | nil => intro i j a _ hi _; simp at hi
  | cons y s ih =>
      intro i j a hij hi hj
      cases i with
      | zero =>
          cases j with
          | zero => exact absurd rfl hij
          | succ k =>
              have hk : k < s.length := by simpa using hj
              simp only [List.getD_cons_succ, List.set_cons_zero, List.set_cons_succ]
              exact getD_cons_set_perm d s k a hk
      | succ m =>
          have hm : m < s.length := by simpa using hi
          cases j with
          | zero =>
              simp only [List.getD_cons_zero, List.set_cons_succ, List.set_cons_zero]
              exact cons_set_swap_perm s m a y hm
          | succ k =>
              have hk : k < s.length := by simpa using hj
              simp only [List.getD_cons_succ, List.set_cons_succ]
              exact (ih m k a (fun hc => hij (congrArg Nat.succ hc)) hm hk).cons y

/-- `_siftdown` permutes the heap: its result is a permutation of writing
`newitem` straight into slot `pos`. -/
theorem siftdownLoop_perm :
    ∀ (fuel : Nat) (heap : List HuffmanNode) (startpos : Nat) (newitem : HuffmanNode)
      (pos : Nat), pos < heap.length →
      (siftdownLoop fuel heap startpos newitem pos).Perm (heap.set pos newitem) := by
  intro fuel
  induction fuel with
  | zero => intro heap startpos newitem pos _; exact List.Perm.refl _
  | succ f ih =>
      intro heap startpos newitem pos hpos
      simp only [siftdownLoop]
      by_cases h1 : startpos < pos
      · simp only [if_pos h1]
        by_cases h2 : newitem.freq < (heap.getD ((pos - 1) / 2) dfltNode).freq
        · simp only [if_pos h2]
          have hpp : (pos - 1) / 2 < pos := by omega
          have hlen : (pos - 1) / 2
              < (heap.set pos (heap.getD ((pos - 1) / 2) dfltNode)).length := by
            rw [List.length_set]; omega
          exact (ih _ startpos newitem _ hlen).trans
            (set_set_getD_perm dfltNode heap pos ((pos - 1) / 2) newitem
              (by omega) hpos (by omega))
        · simp only [if_neg h2]; exact List.Perm.refl _
      · simp only [if_neg h1]; exact List.Perm.refl _

/-- `_siftup` permutes the heap: its result is a permutation of writing
`newitem` straight into slot `pos`. -/
theorem siftupLoop_perm :
    ∀ (fuel : Nat) (heap : List HuffmanNode) (startpos : Nat) (newitem : HuffmanNode)
      (pos : Nat), pos < heap.length →
      (siftupLoop fuel heap startpos newitem pos).Perm (heap.set pos newitem) := by
  intro fuel
  induction fuel with
  | zero =>
      intro heap startpos newitem pos hpos
      have h := siftdownLoop_perm pos (heap.set pos newitem) startpos newitem pos
        (by rw [List.length_set]; exact hpos)
      rwa [List.set_set] at h
  | succ f ih =>
      intro heap startpos newitem pos hpos
      simp only [siftupLoop]
      by_cases h1 : 2 * pos + 1 < heap.length
      · simp only [if_pos h1]
        by_cases h2 : 2 * pos + 1 + 1 < heap.length ∧
            ¬ (heap.getD (2 * pos + 1) dfltNode).freq
              < (heap.getD (2 * pos + 1 + 1) dfltNode).freq
        · simp only [if_pos h2]
          have hlen : 2 * pos + 1 + 1
              < (heap.set pos (heap.getD (2 * pos + 1 + 1) dfltNode)).length := by
            rw [List.length_set]; exact h2.1
          exact (ih _ startpos newitem _ hlen).trans
            (set_set_getD_perm dfltNode heap pos (2 * pos + 1 + 1) newitem
              (by omega) hpos h2.1)
        · simp only [if_neg h2]
          have hlen : 2 * pos + 1
              < (heap.set pos (heap.getD (2 * pos + 1) dfltNode)).length := by
            rw [List.length_set]; exact h1
          exact (ih _ startpos newitem _ hlen).trans
            (set_set_getD_perm dfltNode heap pos (2 * pos + 1) newitem
              (by omega) hpos h1)
      · simp only [if_neg h1]
        have h := siftdownLoop_perm pos (heap.set pos newitem) startpos newitem pos
          (by rw [List.length_set]; exact hpos)
        rwa [List.set_set] at h

/-- `heappush` permutes: the pushed heap holds exactly the old elements plus
the new one. -/
theorem heappush_perm (heap : List HuffmanNode) (item : HuffmanNode) :
    (heappush heap item).Perm (item :: heap) := by
  unfold heappush
  have h := siftdownLoop_perm heap.length (heap ++ [item]) 0 item heap.length
    (by simp)
  have hset : (heap ++ [item]).set heap.length item = heap ++ [item] := by
    rw [List.set_append_right _ _ (Nat.le_refl _)]
    simp
  rw [hset] at h
  exact h.trans (List.perm_append_singleton item heap)

/-- `heappop` on a non-empty heap succeeds, and the returned element together
with the remaining heap is a permutation of the original heap. -/
theorem heappop_perm (heap : List HuffmanNode) (hne : heap ≠ []) :
    ∃ r t, heappop heap = some (r, t) ∧ (r :: t).Perm heap := by
  unfold heappop
  set g := heap.getLast hne with hg
  rw [List.getLast?_eq_getLast heap hne, ← hg]
  have hsplit : heap.dropLast ++ [g] = heap := List.dropLast_append_getLast hne
  cases hrest : heap.dropLast with
  | nil =>
      refine ⟨g, [], rfl, ?_⟩
      rw [hrest] at hsplit
      rw [← hsplit]
      simp
  | cons x rest =>
      rw [hrest] at hsplit
      refine ⟨x, _, rfl, ?_⟩
      simp only [List.set_cons_zero, List.getD_cons_zero]
      have hperm := siftupLoop_perm (g :: rest).length (g :: rest) 0 g 0 (by simp)
      simp only [List.set_cons_zero] at hperm
      rw [← hsplit]
      exact ((hperm.cons x).trans (List.Perm.swap g x rest)).trans
        (List.perm_append_singleton g (x :: rest)).symm

/-- Permuting a heap permutes its collected leaves. -/
theorem heapLeaves_perm {h1 h2 : List HuffmanNode} (h : h1.Perm h2) :
    (heapLeaves h1).Perm (heapLeaves h2) :=
  (h.map HuffmanNode.leavesOf).flatten

/-- One iteration of the merge loop: two nodes are popped and their merge is
pushed; the popped pair together with the remaining heap is a permutation of
the original heap. -/
theorem buildLoop_step (fuel : Nat) (heap : List HuffmanNode) (hlen : 1 < heap.length) :
    ∃ n1 n2 t2,
      buildLoop (fuel + 1) heap
        = buildLoop fuel (heappush t2 (HuffmanNode.internal (n1.freq + n2.freq) n1 n2)) ∧
      (n1 :: n2 :: t2).Perm heap := by
  have hne : heap ≠ [] := by
    intro hc; rw [hc] at hlen; simp at hlen
  obtain ⟨n1, t1, he1, hp1⟩ := heappop_perm heap hne
  have ht1 : t1 ≠ [] := by
    have := hp1.length_eq
    simp only [List.length_cons] at this
    intro hc; rw [hc] at this; simp at this; omega
  obtain ⟨n2, t2, he2, hp2⟩ := heappop_perm t1 ht1
  refine ⟨n1, n2, t2, ?_, (hp2.cons n1).trans hp1⟩
  simp only [buildLoop, if_pos hlen, he1, he2]

/-- The merge loop preserves the multiset of leaves across the heap. -/
theorem buildLoop_heapLeaves :
    ∀ (fuel : Nat) (heap : List HuffmanNode),
      (heapLeaves (buildLoop fuel heap)).Perm (heapLeaves heap) := by
  intro fuel
  induction fuel with
  | zero => intro heap; exact List.Perm.refl _
  | succ f ih =>
      intro heap
      by_cases hlen : 1 < heap.length
      · obtain ⟨n1, n2, t2, heq, hperm⟩ := buildLoop_step f heap hlen
        rw [heq]
        have hpp := heappush_perm t2 (HuffmanNode.internal (n1.freq + n2.freq) n1 n2)
        have e : heapLeaves (HuffmanNode.internal (n1.freq + n2.freq) n1 n2 :: t2)
            = heapLeaves (n1 :: n2 :: t2) := by
          simp [heapLeaves, HuffmanNode.leavesOf]
        refine (ih _).trans ((heapLeaves_perm hpp).trans ?_)
        rw [e]
        exact heapLeaves_perm hperm
      · simp only [buildLoop, if_neg hlen]
        exact List.Perm.refl _

/-- Any merge-closed predicate true of every heap node stays true of every
node after the merge loop. -/
theorem buildLoop_all (Q : HuffmanNode → Prop)
    (hQ : ∀ n1 n2, Q n1 → Q n2 → Q (.internal (n1.freq + n2.freq) n1 n2)) :
    ∀ (fuel : Nat) (heap : List HuffmanNode), (∀ n ∈ heap, Q n) →
      ∀ n ∈ buildLoop fuel heap, Q n := by
  intro fuel
  induction fuel with
  | zero => intro heap hall; exact hall
  | succ f ih =>
      intro heap hall
      by_cases hlen : 1 < heap.length
      · obtain ⟨n1, n2, t2, heq, hperm⟩ := buildLoop_step f heap hlen
        rw [heq]
        apply ih
        intro n hn
        have hn' := (heappush_perm t2 _).mem_iff.1 hn
        rcases List.mem_cons.1 hn' with rfl | hmem
        · exact hQ n1 n2 (hall n1 (hperm.mem_iff.1 (by simp)))
            (hall n2 (hperm.mem_iff.1 (by simp)))
        · exact hall n (hperm.mem_iff.1 (by simp [hmem]))
      · simp only [buildLoop, if_neg hlen]
        exact hall

/-- With fuel at least `len - 1`, the merge loop runs until at most one node
remains. -/
theorem buildLoop_length_le :
    ∀ (fuel : Nat) (heap : List HuffmanNode),
      heap.length ≤ fuel + 1 → (buildLoop fuel heap).length ≤ 1 := by
  intro fuel
  induction fuel with
  | zero =>
      intro heap h
      simpa [buildLoop] using h
  | succ f ih =>
      intro heap h
      by_cases hlen : 1 < heap.length
      · obtain ⟨n1, n2, t2, heq, hperm⟩ := buildLoop_step f heap hlen
        rw [heq]
        apply ih
        have h1 := (heappush_perm t2 (.internal (n1.freq + n2.freq) n1 n2)).length_eq
        have h2 := hperm.length_eq
        simp only [List.length_cons] at h1 h2
        omega
      · simp only [buildLoop, if_neg hlen]
        omega

/-- The merge loop never empties a non-empty heap. -/
theorem buildLoop_ne_nil :
    ∀ (fuel : Nat) (heap : List HuffmanNode), heap ≠ [] → buildLoop fuel heap ≠ [] := by
  intro fuel
  induction fuel with
  | zero => intro heap h; exact h
  | succ f ih =>
      intro heap h
      by_cases hlen : 1 < heap.length
      · obtain ⟨n1, n2, t2, heq, hperm⟩ := buildLoop_step f heap hlen
        rw [heq]
        apply ih
        have h1 := (heappush_perm t2 (.internal (n1.freq + n2.freq) n1 n2)).length_eq
        simp only [List.length_cons] at h1
        intro hc
        rw [hc] at h1
        simp at h1
      · simp only [buildLoop, if_neg hlen]
        exact h

/-- Seeding the heap by repeated `heappush` is a permutation of the list of
leaves of the table entries. -/
theorem seed_perm :
    ∀ (t : List (Nat × Nat)) (h0 : List HuffmanNode),
      (t.foldl (fun h p => heappush h (HuffmanNode.leaf p.1 p.2)) h0).Perm
        ((t.map (fun p => HuffmanNode.leaf p.1 p.2)) ++ h0) := by
  intro t
  induction t with
  | nil => intro h0; simp
  | cons p t ih =>
      intro h0
      simp only [List.foldl_cons, List.map_cons, List.cons_append]
      refine (ih _).trans ?_
      exact (List.Perm.append_left _ (heappush_perm h0 _)).trans List.perm_middle

/-- The leaves of the seed heap are exactly the table entries. -/
theorem heapLeaves_map_leaf :
    ∀ (t : List (Nat × Nat)),
      heapLeaves (t.map (fun p => HuffmanNode.leaf p.1 p.2)) = t := by
  intro t
  induction t with
  | nil => rfl
  | cons p t ih =>
      simp only [List.map_cons, heapLeaves, List.flatten_cons] at ih ⊢
      rw [ih]
      rfl

/-- Structure of `build_huffman_tree` on a non-empty table: it returns a
root whose leaves are (a permutation of) the table entries, and the root
satisfies every predicate that holds of all seed leaves and is closed under
the loop's merge step. -/
theorem build_huffman_tree_struct (t : List (Nat × Nat)) (hne : t ≠ []) :
    ∃ root, build_huffman_tree t = some root ∧ root.leavesOf.Perm t ∧
      ∀ (Q : HuffmanNode → Prop),
        (∀ n1 n2, Q n1 → Q n2 → Q (.internal (n1.freq + n2.freq) n1 n2)) →
        (∀ p ∈ t, Q (.leaf p.1 p.2)) → Q root := by
  set seed := t.foldl (fun h p => heappush h (HuffmanNode.leaf p.1 p.2)) [] with hseed
  have hsp : seed.Perm (t.map fun p => HuffmanNode.leaf p.1 p.2) := by
    have := seed_perm t []
    rwa [List.append_nil] at this
  have hlen : seed.length = t.length := by simpa using hsp.length_eq
  have hsne : seed ≠ [] := by
    intro hc
    rw [hc] at hlen
    exact hne (List.length_eq_zero.1 hlen.symm)
  have hloop_ne := buildLoop_ne_nil seed.length seed hsne
  have hloop_le := buildLoop_length_le seed.length seed (by omega)
  cases hb : buildLoop seed.length seed with
  | nil => exact absurd hb hloop_ne
  | cons root rest =>
      rw [hb] at hloop_le
      simp only [List.length_cons] at hloop_le
      have hrest : rest = [] := List.length_eq_zero.1 (by omega)
      subst hrest
      have hbt : build_huffman_tree t
          = (match buildLoop seed.length seed with
             | [] => none
             | x :: _ => some x) := by
        rw [hseed]
        rfl
      rw [hb] at hbt
      refine ⟨root, hbt, ?_, ?_⟩
      · have h1 := buildLoop_heapLeaves seed.length seed
        rw [hb] at h1
        have h2 : heapLeaves [root] = root.leavesOf := by simp [heapLeaves]
        rw [h2] at h1
        refine h1.trans ((heapLeaves_perm hsp).trans ?_)
        rw [heapLeaves_map_leaf]
      · intro Q hQ hseeds
        have hall : ∀ n ∈ seed, Q n := by
          intro n hn
          obtain ⟨p, hp, rfl⟩ := List.mem_map.1 (hsp.mem_iff.1 hn)
          exact hseeds p hp
        exact buildLoop_all Q hQ seed.length seed hall root (by rw [hb]; simp)

/-- A node's leaf count is the length of its leaf list. -/
theorem countLeaves_eq_length (T : HuffmanNode) :
    T.countLeaves = T.leavesOf.length := by
  induction T with
  | leaf c f => rfl
  | internal f l r ihl ihr =>
      simp [HuffmanNode.countLeaves, HuffmanNode.leavesOf, ihl, ihr]

/-- Every node has at least one leaf. -/
theorem countLeaves_pos (T : HuffmanNode) : 1 ≤ T.countLeaves := by
  induction T with
  | leaf c f => exact Nat.le_refl 1
  | internal f l r ihl ihr =>
      simp only [HuffmanNode.countLeaves]
      omega

/-- Every binary node of this shape has one internal node fewer than it has
leaves. -/
theorem countInternal_eq (T : HuffmanNode) :
    T.countInternal = T.countLeaves - 1 := by
  induction T with
  | leaf c f => rfl
  | internal f l r ihl ihr =>
      have h1 := countLeaves_pos l
      have h2 := countLeaves_pos r
      simp only [HuffmanNode.countInternal, HuffmanNode.countLeaves, ihl, ihr]
      omega

/-- `leavesPos` is the pointwise positivity of all leaf frequencies. -/
theorem leavesPos_iff (T : HuffmanNode) :
    T.leavesPos = true ↔ ∀ p ∈ T.leavesOf, 0 < p.2 := by
  induction T with
  | leaf c f => simp [HuffmanNode.leavesPos, HuffmanNode.leavesOf]
  | internal f l r ihl ihr =>
      simp only [HuffmanNode.leavesPos, HuffmanNode.leavesOf, Bool.and_eq_true,
        ihl, ihr, List.mem_append]
      constructor
      · rintro ⟨h1, h2⟩ p hp
        rcases hp with hp | hp
        · exact h1 p hp
        · exact h2 p hp
      · intro h
        exact ⟨fun p hp => h p (Or.inl hp), fun p hp => h p (Or.inr hp)⟩

/-- C7: on any non-empty frequency table (distinct symbols, positive
counts — the invariants of tables produced by `build_frequency_table`),
`build_huffman_tree` returns a tree in which every leaf frequency is
positive, every internal node's frequency is the sum of its children's, and
there are exactly `k` leaves and `k - 1` internal nodes for the `k`-entry
table. -/
theorem C7_tree_invariants (t : List (Nat × Nat)) (hne : t ≠ [])
    (hnodup : (t.map Prod.fst).Nodup) (hpos : all_counts_pos t = true) :
    tree_invariants_hold t = true := by
  obtain ⟨root, hbt, hleaves, hQ⟩ := build_huffman_tree_struct t hne
  unfold tree_invariants_hold
  rw [hbt]
  have hpos' : ∀ p ∈ t, 0 < p.2 := by
    intro p hp
    have := (List.all_eq_true.1 hpos) p hp
    simpa using this
  have hsum : root.sumOk = true :=
    hQ (fun n => n.sumOk = true)
      (fun n1 n2 h1 h2 => by simp [HuffmanNode.sumOk, h1, h2])
      (fun p _ => rfl)
  have hlp : root.leavesPos = true :=
    (leavesPos_iff root).2 (fun p hp => hpos' p (hleaves.mem_iff.1 hp))
  have hcl : root.countLeaves = t.length := by
    rw [countLeaves_eq_length, hleaves.length_eq]
  have hci : root.countInternal = t.length - 1 := by
    rw [countInternal_eq, hcl]
  simp [hsum, hlp, hcl, hci]

/-- Witness for `C7_tree_invariants` on the table {97: 3, 98: 2}. -/
theorem C7_tree_invariants_witness :
    ([(97, 3), (98, 2)] : List (Nat × Nat)) ≠ [] ∧
      (([(97, 3), (98, 2)] : List (Nat × Nat)).map Prod.fst).Nodup ∧
      all_counts_pos [(97, 3), (98, 2)] = true ∧
      tree_invariants_hold [(97, 3), (98, 2)] = true :=
  ⟨by decide, by decide, by decide,
    C7_tree_invariants [(97, 3), (98, 2)] (by decide) (by decide) (by decide)⟩

/-- The traversal records exactly the leaf symbols, in order. -/
theorem pathCodes_fst :
    ∀ (T : HuffmanNode) (pre : List Bool),
      (pathCodes T pre).map Prod.fst = T.leavesOf.map Prod.fst := by
  intro T
  induction T with
  | leaf c f => intro pre; rfl
  | internal f l r ihl ihr =>
      intro pre
      simp [pathCodes, HuffmanNode.leavesOf, ihl, ihr]

/-- Every code recorded under accumulated code `pre` extends `pre`. -/
theorem pathCodes_extends :
    ∀ (T : HuffmanNode) (pre : List Bool) (c : Nat) (w : List Bool),
      (c, w) ∈ pathCodes T pre → ∃ s, w = pre ++ s := by
  intro T
  induction T with
  | leaf c' f =>
      intro pre c w hw
      simp only [pathCodes, List.mem_singleton, Prod.mk.injEq] at hw
      exact ⟨[], by rw [hw.2, List.append_nil]⟩
  | internal f l r ihl ihr =>
      intro pre c w hw
      rcases List.mem_append.1 hw with hw | hw
      · obtain ⟨s, hs⟩ := ihl (pre ++ [false]) c w hw
        exact ⟨[false] ++ s, by rw [hs, List.append_assoc]⟩
      · obtain ⟨s, hs⟩ := ihr (pre ++ [true]) c w hw
        exact ⟨[true] ++ s, by rw [hs, List.append_assoc]⟩

/-- Stripping a common leading block does not change `beginsWith`. -/
theorem beginsWith_append_left :
    ∀ (pre u v : List Bool), beginsWith (pre ++ u) (pre ++ v) = beginsWith u v := by
  intro pre
  induction pre with
  | nil => intro u v; rfl
  | cons b pre ih => intro u v; simp [beginsWith, ih]

/-- Every bit-string starts with itself. -/
theorem beginsWith_refl : ∀ (w : List Bool), beginsWith w w = true := by
  intro w
  induction w with
  | nil => rfl
  | cons b w ih => simp [beginsWith, ih]

/-- `beginsWith v w` holds exactly when `w` extends to `v`. -/
theorem beginsWith_iff :
    ∀ (v w : List Bool), beginsWith v w = true ↔ ∃ s, w ++ s = v := by
  intro v
  induction v with
  | nil =>
      intro w
      cases w with
      | nil => simp [beginsWith]
      | cons c w => simp [beginsWith]
  | cons b v ih =>
      intro w
      cases w with
      | nil => simp [beginsWith]
      | cons c w =>
          simp only [beginsWith, Bool.and_eq_true, beq_iff_eq, ih, List.cons_append,
            List.cons.injEq]
          constructor
          · rintro ⟨rfl, s, rfl⟩
            exact ⟨s, rfl, rfl⟩
          · rintro ⟨s, rfl, rfl⟩
            exact ⟨rfl, s, rfl⟩

/-- Codes of distinct symbols recorded by one traversal never start one
another: the paths diverge at the node where the two leaves separate. -/
theorem pathCodes_pairwise :
    ∀ (T : HuffmanNode) (pre : List Bool) (p q : Nat × List Bool),
      p ∈ pathCodes T pre → q ∈ pathCodes T pre → p.1 ≠ q.1 →
      beginsWith q.2 p.2 = false := by
  intro T
  induction T with
  | leaf c f =>
      intro pre p q hp hq hne
      simp only [pathCodes, List.mem_singleton] at hp hq
      rw [hp, hq] at hne
      exact absurd rfl hne
  | internal f l r ihl ihr =>
      intro pre p q hp hq hne
      rcases List.mem_append.1 hp with hp | hp <;> rcases List.mem_append.1 hq with hq | hq
      · exact ihl (pre ++ [false]) p q hp hq hne
      · obtain ⟨s1, hs1⟩ := pathCodes_extends l (pre ++ [false]) p.1 p.2 (by simpa using hp)
        obtain ⟨s2, hs2⟩ := pathCodes_extends r (pre ++ [true]) q.1 q.2 (by simpa using hq)
        rw [hs1, hs2, List.append_assoc, List.append_assoc, beginsWith_append_left]
        rfl
      · obtain ⟨s1, hs1⟩ := pathCodes_extends r (pre ++ [true]) p.1 p.2 (by simpa using hp)
        obtain ⟨s2, hs2⟩ := pathCodes_extends l (pre ++ [false]) q.1 q.2 (by simpa using hq)
        rw [hs1, hs2, List.append_assoc, List.append_assoc, beginsWith_append_left]
        rfl
      · exact ihr (pre ++ [true]) p q hp hq hne

/-- Inserting a fresh key into the dict appends it. -/
theorem dictInsert_fresh :
    ∀ (acc : List (Nat × List Bool)) (c : Nat) (code : List Bool),
      c ∉ acc.map Prod.fst → dictInsert acc c code = acc ++ [(c, code)] := by
  intro acc
  induction acc with
  | nil => intro c code _; rfl
  | cons p acc ih =>
      intro c code hc
      simp only [List.map_cons, List.mem_cons] at hc
      push_neg at hc
      simp only [dictInsert]
      rw [if_neg (fun h => hc.1 h.symm), ih c code hc.2]
      rfl

/-- With distinct leaf symbols (fresh relative to the accumulated dict), the
recursive helper appends exactly the traversal's path codes. -/
theorem build_encoding_helper_eq :
    ∀ (T : HuffmanNode) (pre : List Bool) (acc : List (Nat × List Bool)),
      ((acc.map Prod.fst) ++ (T.leavesOf.map Prod.fst)).Nodup →
      build_encoding_helper T pre acc = acc ++ pathCodes T pre := by
  intro T
  induction T with
  | leaf c f =>
      intro pre acc h
      have hc : c ∉ acc.map Prod.fst := by
        rcases List.nodup_append.1 h with ⟨-, -, hdisj⟩
        intro hmem
        exact hdisj hmem (by simp [HuffmanNode.leavesOf])
      simp only [build_encoding_helper, pathCodes]
      exact dictInsert_fresh acc c pre hc
  | internal f l r ihl ihr =>
      intro pre acc h
      have hassoc : ((acc.map Prod.fst ++ l.leavesOf.map Prod.fst)
          ++ r.leavesOf.map Prod.fst).Nodup := by
        simp only [HuffmanNode.leavesOf, List.map_append] at h
        simpa [List.append_assoc] using h
      have hl : (acc.map Prod.fst ++ l.leavesOf.map Prod.fst).Nodup :=
        List.Nodup.sublist (List.sublist_append_left _ _) hassoc
      simp only [build_encoding_helper, pathCodes]
      rw [ihl (pre ++ [false]) acc hl]
      have hkeys : ((acc ++ pathCodes l (pre ++ [false])).map Prod.fst
          ++ r.leavesOf.map Prod.fst).Nodup := by
        rw [List.map_append, pathCodes_fst]
        exact hassoc
      rw [ihr (pre ++ [true]) _ hkeys, List.append_assoc]

/-- For a tree with distinct leaf symbols, `build_encoding_table` is exactly
the traversal's path-code table. -/
theorem build_encoding_table_eq_pathCodes (root : HuffmanNode)
    (hkeys : (root.leavesOf.map Prod.fst).Nodup) :
    build_encoding_table (some root) = pathCodes root [] := by
  unfold build_encoding_table
  exact build_encoding_helper_eq root [] [] (by simpa using hkeys)

/-- C6: the code table built from the Huffman tree of any frequency table
with at least two distinct symbols is prefix-free — no symbol's code is a
leading block of a distinct symbol's code. -/
theorem C6_no_code_starts_another (t : List (Nat × Nat))
    (hnodup : (t.map Prod.fst).Nodup) (h2 : 2 ≤ t.length) :
    noCodeStartsAnother (build_encoding_table (build_huffman_tree t)) = true := by
  have hne : t ≠ [] := by
    intro hc
    rw [hc] at h2
    simp at h2
  obtain ⟨root, hbt, hleaves, -⟩ := build_huffman_tree_struct t hne
  have hkeys : (root.leavesOf.map Prod.fst).Nodup :=
    hnodup.perm (hleaves.map Prod.fst).symm
  rw [hbt, build_encoding_table_eq_pathCodes root hkeys]
  unfold noCodeStartsAnother
  rw [List.all_eq_true]
  intro p hp
  rw [List.all_eq_true]
  intro q hq
  by_cases hpq : p.1 = q.1
  · simp [hpq]
  · simp [pathCodes_pairwise root [] p q hp hq hpq]

/-- Witness for `C6_no_code_starts_another` on the table {97: 1, 98: 1}. -/
theorem C6_no_code_starts_another_witness :
    (([(97, 1), (98, 1)] : List (Nat × Nat)).map Prod.fst).Nodup ∧
      2 ≤ ([(97, 1), (98, 1)] : List (Nat × Nat)).length ∧
      noCodeStartsAnother
        (build_encoding_table (build_huffman_tree [(97, 1), (98, 1)])) = true :=
  ⟨by decide, by decide,
    C6_no_code_starts_another [(97, 1), (98, 1)] (by decide) (by decide)⟩

/-- Keys after one counting step: an existing key stays put, a new key is
appended. -/
theorem dictIncr_keys (t : List (Nat × Nat)) (c : Nat) :
    (dictIncr t c).map Prod.fst
      = if c ∈ t.map Prod.fst then t.map Prod.fst else t.map Prod.fst ++ [c] := by
  induction t with
  | nil => simp [dictIncr]
  | cons p rest ih =>
      obtain ⟨k, v⟩ := p
      by_cases hk : k = c
      · subst hk
        simp [dictIncr]
      · simp only [dictIncr, if_neg hk, List.map_cons, ih]
        by_cases hmem : c ∈ rest.map Prod.fst
        · rw [if_pos hmem, if_pos (List.mem_cons_of_mem k hmem)]
        · rw [if_neg hmem, if_neg (fun hc => by
            rcases List.mem_cons.1 hc with h | h
            · exact hk h.symm
            · exact hmem h), List.cons_append]

/-- One counting step keeps counts positive. -/
theorem dictIncr_pos (t : List (Nat × Nat)) (c : Nat)
    (h : ∀ p ∈ t, 0 < p.2) : ∀ p ∈ dictIncr t c, 0 < p.2 := by
  induction t with
  | nil =>
      intro p hp
      simp only [dictIncr, List.mem_singleton] at hp
      rw [hp]
      exact Nat.one_pos
  | cons q rest ih =>
      obtain ⟨k, v⟩ := q
      intro p hp
      by_cases hk : k = c
      · rw [show dictIncr ((k, v) :: rest) c = (k, v + 1) :: rest from by
          simp [dictIncr, hk]] at hp
        rcases List.mem_cons.1 hp with hEq | hp'
        · rw [hEq]
          exact Nat.succ_pos v
        · exact h p (List.mem_cons_of_mem _ hp')
      · rw [show dictIncr ((k, v) :: rest) c = (k, v) :: dictIncr rest c from by
          simp [dictIncr, hk]] at hp
        rcases List.mem_cons.1 hp with hEq | hp'
        · rw [hEq]
          exact h (k, v) (by simp)
        · exact ih (fun q hq => h q (List.mem_cons_of_mem _ hq)) p hp'

/-- Key membership across the whole counting fold. -/
theorem foldl_dictIncr_mem :
    ∀ (data : List Nat) (acc : List (Nat × Nat)) (x : Nat),
      x ∈ (data.foldl dictIncr acc).map Prod.fst ↔ x ∈ acc.map Prod.fst ∨ x ∈ data := by
  intro data
  induction data with
  | nil => intro acc x; simp
  | cons d rest ih =>
      intro acc x
      simp only [List.foldl_cons, ih, dictIncr_keys]
      by_cases hmem : d ∈ acc.map Prod.fst
      · rw [if_pos hmem]
        simp only [List.mem_cons]
        constructor
        · intro h
          rcases h with h | h
          · exact Or.inl h
          · exact Or.inr (Or.inr h)
        · intro h
          rcases h with h | h | h
          · exact Or.inl h
          · exact Or.inl (by rw [h]; exact hmem)
          · exact Or.inr h
      · rw [if_neg hmem]
        simp only [List.mem_append, List.mem_singleton, List.mem_cons,
          List.not_mem_nil, or_false]
        tauto

/-- The counting fold keeps the keys distinct. -/
theorem foldl_dictIncr_nodup :
    ∀ (data : List Nat) (acc : List (Nat × Nat)),
      (acc.map Prod.fst).Nodup → ((data.foldl dictIncr acc).map Prod.fst).Nodup := by
  intro data
  induction data with
  | nil => intro acc h; exact h
  | cons d rest ih =>
      intro acc h
      simp only [List.foldl_cons]
      apply ih
      rw [dictIncr_keys]
      by_cases hmem : d ∈ acc.map Prod.fst
      · simp [hmem, h]
      · simp only [if_neg hmem]
        rw [List.nodup_append]
        exact ⟨h, List.nodup_singleton d, by
          intro a ha hb
          simp only [List.mem_singleton] at hb
          subst hb
          exact hmem ha⟩

/-- The counting fold keeps all counts positive. -/
theorem foldl_dictIncr_pos :
    ∀ (data : List Nat) (acc : List (Nat × Nat)),
      (∀ p ∈ acc, 0 < p.2) → ∀ p ∈ data.foldl dictIncr acc, 0 < p.2 := by
  intro data
  induction data with
  | nil => intro acc h; exact h
  | cons d rest ih =>
      intro acc h
      simp only [List.foldl_cons]
      exact ih _ (dictIncr_pos acc d h)

/-- A symbol occurs in the input exactly when it is a key of the frequency
table built from that input. -/
theorem build_frequency_table_mem (data : List Nat) (x : Nat) :
    x ∈ (build_frequency_table data).map Prod.fst ↔ x ∈ data := by
  unfold build_frequency_table
  rw [foldl_dictIncr_mem]
  simp

/-- The frequency table has distinct keys. -/
theorem build_frequency_table_nodup (data : List Nat) :
    ((build_frequency_table data).map Prod.fst).Nodup :=
  foldl_dictIncr_nodup data [] (by simp)

/-- Every count in the frequency table is positive. -/
theorem build_frequency_table_pos (data : List Nat) :
    ∀ p ∈ build_frequency_table data, 0 < p.2 :=
  foldl_dictIncr_pos data [] (by simp)

/-- A key of the dict is found by the dict read, paired with its value. -/
theorem dictGet_mem :
    ∀ (table : List (Nat × List Bool)) (c : Nat),
      c ∈ table.map Prod.fst → (c, dictGet table c) ∈ table := by
  intro table
  induction table with
  | nil => intro c hc; simp at hc
  | cons p rest ih =>
      obtain ⟨k, v⟩ := p
      intro c hc
      by_cases hk : k = c
      · subst hk
        simp [dictGet]
      · simp only [List.map_cons, List.mem_cons] at hc
        rcases hc with rfl | hc
        · exact absurd rfl hk
        · simp only [dictGet, if_neg hk]
          exact List.mem_cons_of_mem _ (ih c hc)

/-- A successful candidate lookup names an entry of the (forward) table. -/
theorem rdictGet_mem :
    ∀ (table : List (Nat × List Bool)) (w : List Bool) (c : Nat),
      rdictGet (reverse_table table) w = some c → (c, w) ∈ table := by
  intro table
  induction table with
  | nil => intro w c h; simp [reverse_table, rdictGet] at h
  | cons p rest ih =>
      obtain ⟨k, v⟩ := p
      intro w c h
      simp only [reverse_table, List.map_cons, rdictGet] at h
      by_cases hv : v = w
      · rw [if_pos hv] at h
        injection h with h
        subst h
        subst hv
        simp
      · rw [if_neg hv] at h
        exact List.mem_cons_of_mem _ (ih w c h)

/-- When only one symbol carries the code `w`, the candidate lookup finds it. -/
theorem rdictGet_some_of_unique :
    ∀ (table : List (Nat × List Bool)) (w : List Bool) (c : Nat),
      (c, w) ∈ table → (∀ c', (c', w) ∈ table → c' = c) →
      rdictGet (reverse_table table) w = some c := by
  intro table
  induction table with
  | nil => intro w c h _; simp at h
  | cons p rest ih =>
      obtain ⟨k, v⟩ := p
      intro w c hmem huniq
      simp only [reverse_table, List.map_cons, rdictGet]
      by_cases hv : v = w
      · rw [if_pos hv]
        rw [huniq k (by simp [hv])]
      · rw [if_neg hv]
        rcases List.mem_cons.1 hmem with heq | hmem'
        · exact absurd (congrArg Prod.snd heq).symm hv
        · exact ih w c hmem' (fun c' hc' => huniq c' (List.mem_cons_of_mem _ hc'))

/-- In a dict (distinct keys), a key determines its value. -/
theorem assoc_value_unique :
    ∀ (table : List (Nat × List Bool)), (table.map Prod.fst).Nodup →
      ∀ (c : Nat) (w1 w2 : List Bool), (c, w1) ∈ table → (c, w2) ∈ table → w1 = w2 := by
  intro table
  induction table with
  | nil => intro _ c w1 w2 h; simp at h
  | cons p rest ih =>
      obtain ⟨k, v⟩ := p
      intro hnd c w1 w2 h1 h2
      simp only [List.map_cons, List.nodup_cons] at hnd
      rcases List.mem_cons.1 h1 with he1 | h1' <;> rcases List.mem_cons.1 h2 with he2 | h2'
      · injection he1 with hc1 hw1
        injection he2 with hc2 hw2
        rw [hw1, hw2]
      · injection he1 with hc1 hw1
        exact absurd (hc1 ▸ List.mem_map_of_mem Prod.fst h2') hnd.1
      · injection he2 with hc2 hw2
        exact absurd (hc2 ▸ List.mem_map_of_mem Prod.fst h1') hnd.1
      · exact ih hnd.2 c w1 w2 h1' h2'

/-- Two traversal entries carrying the same code name the same symbol
(otherwise prefix-freedom would refute `beginsWith w w`). -/
theorem pathCodes_unique_code (root : HuffmanNode) (c c' : Nat) (w : List Bool)
    (h1 : (c, w) ∈ pathCodes root []) (h2 : (c', w) ∈ pathCodes root []) : c' = c := by
  by_contra hne
  have hfalse := pathCodes_pairwise root [] (c', w) (c, w) h2 h1 hne
  rw [beginsWith_refl] at hfalse
  simp at hfalse

/-- The decoder's candidate lookup, on the reverse view of the traversal
table, finds exactly the symbol of a full code. -/
theorem pathCodes_rdictGet (root : HuffmanNode) (c : Nat) (w : List Bool)
    (h : (c, w) ∈ pathCodes root []) :
    rdictGet (reverse_table (pathCodes root [])) w = some c :=
  rdictGet_some_of_unique (pathCodes root []) w c h
    (fun c' hc' => pathCodes_unique_code root c c' w h hc')

/-- No strictly shorter leading block of a full code is itself a code in the
traversal table (with distinct leaf symbols). -/
theorem pathCodes_no_proper (root : HuffmanNode)
    (hkeys : ((pathCodes root []).map Prod.fst).Nodup)
    (c : Nat) (w p q : List Bool)
    (hmem : (c, w) ∈ pathCodes root []) (hp : p ≠ []) (hpq : p ++ q = w) (hq : q ≠ []) :
    rdictGet (reverse_table (pathCodes root [])) p = none := by
  cases hfind : rdictGet (reverse_table (pathCodes root [])) p with
  | none => rfl
  | some c' =>
      exfalso
      have hmem' := rdictGet_mem (pathCodes root []) p c' hfind
      by_cases hc : c' = c
      · subst hc
        have hw := assoc_value_unique (pathCodes root []) hkeys c' p w hmem' hmem
        rw [hw] at hpq
        have := congrArg List.length hpq
        simp only [List.length_append] at this
        have : q.length = 0 := by omega
        exact hq (List.length_eq_zero.1 this)
      · have hfalse := pathCodes_pairwise root [] (c', p) (c, w) hmem' hmem hc
        rw [(beginsWith_iff w p).2 ⟨q, hpq⟩] at hfalse
        simp at hfalse

/-- Under an internal (two-child) root, every recorded code is non-empty. -/
theorem pathCodes_nonempty (f : Nat) (l r : HuffmanNode) (c : Nat) (w : List Bool)
    (h : (c, w) ∈ pathCodes (.internal f l r) []) : w ≠ [] := by
  rcases List.mem_append.1 h with h | h
  · obtain ⟨s, hs⟩ := pathCodes_extends l ([] ++ [false]) c w h
    rw [hs]
    simp
  · obtain ⟨s, hs⟩ := pathCodes_extends r ([] ++ [true]) c w h
    rw [hs]
    simp

/-- Walking the decoder through one full code (no shorter leading block of
which is a code) emits exactly that code's symbol and resets the candidate. -/
theorem decode_one_code (rt : List (List Bool × Nat)) (w : List Bool) (c : Nat)
    (hfind : rdictGet rt w = some c)
    (hproper : ∀ p, p ≠ [] → (∃ s, p ++ s = w ∧ s ≠ []) → rdictGet rt p = none) :
    ∀ (w' u : List Bool) (bits : List Bool) (acc : List Nat),
      u ++ w' = w → w' ≠ [] →
      decode_loop rt (w' ++ bits) u acc = decode_loop rt bits [] (acc ++ [c]) := by
  intro w'
  induction w' with
  | nil => intro u bits acc _ hne; exact absurd rfl hne
  | cons b w'' ih =>
      intro u bits acc huw _
      cases w'' with
      | nil =>
          have hw : u ++ [b] = w := huw
          simp only [List.singleton_append, decode_loop, hw, hfind]
          rfl
      | cons b' rest =>
          have hcur : rdictGet rt (u ++ [b]) = none := by
            apply hproper
            · simp
            · exact ⟨b' :: rest, by simpa [List.append_assoc] using huw, by simp⟩
          simp only [List.cons_append, decode_loop, hcur]
          exact ih (u ++ [b]) bits acc (by simpa [List.append_assoc] using huw) (by simp)

/-- The decoder inverts the encoder on a whole symbol stream: decoding the
concatenated codes of `syms` appends exactly `syms` and ends with an empty
candidate, provided each symbol's code is non-empty, is found by the reverse
lookup, and has no shorter leading block in the table. -/
theorem decode_all (table : List (Nat × List Bool)) :
    ∀ (syms : List Nat) (acc : List Nat),
      (∀ s ∈ syms, dictGet table s ≠ [] ∧
        rdictGet (reverse_table table) (dictGet table s) = some s ∧
        (∀ p, p ≠ [] → (∃ q, p ++ q = dictGet table s ∧ q ≠ []) →
          rdictGet (reverse_table table) p = none)) →
      decode_loop (reverse_table table) (encode_data table syms) [] acc
        = (acc ++ syms, []) := by
  intro syms
  induction syms with
  | nil =>
      intro acc _
      simp [encode_data, decode_loop]
  | cons s rest ih =>
      intro acc H
      obtain ⟨hne, hfind, hproper⟩ := H s (by simp)
      have henc : encode_data table (s :: rest)
          = dictGet table s ++ encode_data table rest := by
        simp [encode_data]
      rw [henc,
        decode_one_code (reverse_table table) (dictGet table s) s hfind hproper
          (dictGet table s) [] (encode_data table rest) acc rfl hne,
        ih (acc ++ [s]) (fun x hx => H x (by simp [hx]))]
      simp

/-- Expanding the 8-bit MSB-first value of an 8-bit chunk recovers the
chunk. -/
theorem byteToBits_bitsToNat :
    ∀ (w : List Bool), w.length = 8 → byteToBits (bitsToNat w) = w := by
  intro w hw
  cases w with
  | nil => simp at hw
  | cons b7 w =>
  cases w with
  | nil => simp at hw
  | cons b6 w =>
  cases w with
  | nil => simp at hw
  | cons b5 w =>
  cases w with
  | nil => simp at hw
  | cons b4 w =>
  cases w with
  | nil => simp at hw
  | cons b3 w =>
  cases w with
  | nil => simp at hw
  | cons b2 w =>
  cases w with
  | nil => simp at hw
  | cons b1 w =>
  cases w with
  | nil => simp at hw
  | cons b0 w =>
  have hnil : w = [] := by
    simp only [List.length_cons] at hw
    exact List.length_eq_zero.1 (by omega)
  subst hnil
  revert b7 b6 b5 b4 b3 b2 b1 b0
  decide

/-- Packing a byte-aligned bit-string into bytes and expanding each byte
MSB-first is the identity. -/
theorem pack_bytes_unpack :
    ∀ (fuel : Nat) (bs : List Bool), bs.length ≤ fuel → 8 ∣ bs.length →
      ((pack_bytes fuel bs).map byteToBits).flatten = bs := by
  intro fuel
  induction fuel with
  | zero =>
      intro bs h _
      have : bs = [] := List.length_eq_zero.1 (by omega)
      subst this
      simp [pack_bytes]
  | succ f ih =>
      intro bs h hdvd
      cases bs with
      | nil => simp [pack_bytes]
      | cons b rest =>
          have hlen : 8 ≤ (b :: rest).length := by
            obtain ⟨k, hk⟩ := hdvd
            simp only [List.length_cons] at hk ⊢
            omega
          simp only [pack_bytes, List.map_cons, List.flatten_cons]
          rw [byteToBits_bitsToNat _ (by rw [List.length_take]; omega)]
          rw [ih _ (by rw [List.length_drop]; simp only [List.length_cons] at h ⊢; omega)
            (by rw [List.length_drop]; obtain ⟨k, hk⟩ := hdvd; omega)]
          exact List.take_append_drop 8 (b :: rest)

/-- The padding count computed by `compress_file` lies in 1..8 and pads the
encoded bit-string to a byte boundary. -/
theorem padding_arith (n : Nat) :
    1 ≤ 8 - n % 8 ∧ 8 - n % 8 ≤ 8 ∧ 8 ∣ (n + (8 - n % 8)) := by
  omega

/-- Dropping the padding from the padded bit-string recovers the encoded
bit-string. -/
theorem strip_padding_padded (enc : List Bool) (padding : Nat) (hp : padding ≠ 0) :
    strip_padding (enc ++ List.replicate padding false) padding = enc := by
  unfold strip_padding
  rw [if_neg hp]
  have hlen : (enc ++ List.replicate padding false).length - padding = enc.length := by
    simp
  rw [hlen]
  exact List.take_left enc _

/-- On a stream with at least two distinct symbols, every stream symbol's
code in the pipeline's table is non-empty, is found by the reverse-table
lookup, and no shorter leading block of it is a code. -/
theorem pipeline_symbol_conditions (data : List Nat)
    (h2 : 2 ≤ (build_frequency_table data).length) :
    ∀ s ∈ data,
      dictGet (build_encoding_table (build_huffman_tree (build_frequency_table data))) s
          ≠ [] ∧
      rdictGet
          (reverse_table
            (build_encoding_table (build_huffman_tree (build_frequency_table data))))
          (dictGet (build_encoding_table (build_huffman_tree (build_frequency_table data))) s)
        = some s ∧
      (∀ p, p ≠ [] →
        (∃ q, p ++ q
            = dictGet (build_encoding_table (build_huffman_tree (build_frequency_table data))) s
          ∧ q ≠ []) →
        rdictGet
            (reverse_table
              (build_encoding_table (build_huffman_tree (build_frequency_table data))))
            p
          = none) := by
  have hne : build_frequency_table data ≠ [] := by
    intro hc
    rw [hc] at h2
    simp at h2
  obtain ⟨root, hbt, hleaves, -⟩ := build_huffman_tree_struct (build_frequency_table data) hne
  have hkeysroot : (root.leavesOf.map Prod.fst).Nodup :=
    (build_frequency_table_nodup data).perm (hleaves.map Prod.fst).symm
  have htable : build_encoding_table (build_huffman_tree (build_frequency_table data))
      = pathCodes root [] := by
    rw [hbt]
    exact build_encoding_table_eq_pathCodes root hkeysroot
  have hkeysPC : ((pathCodes root []).map Prod.fst).Nodup := by
    rw [pathCodes_fst]
    exact hkeysroot
  have hlen : 2 ≤ root.leavesOf.length := by
    rw [hleaves.length_eq]
    exact h2
  intro s hs
  rw [htable]
  have hs_tbl : s ∈ (pathCodes root []).map Prod.fst := by
    rw [pathCodes_fst]
    exact (hleaves.map Prod.fst).mem_iff.2
      ((build_frequency_table_mem data s).2 hs)
  have hmem := dictGet_mem (pathCodes root []) s hs_tbl
  refine ⟨?_, pathCodes_rdictGet root s _ hmem,
    fun p hp ⟨q, hpq, hq⟩ => pathCodes_no_proper root hkeysPC s _ p q hmem hp hpq hq⟩
  cases root with
  | leaf c f =>
      simp [HuffmanNode.leavesOf] at hlen
  | internal f l r =>
      exact pathCodes_nonempty f l r s _ hmem

/-- C1, corrected to streams with at least two distinct symbols: compressing
such a stream with the table built from it and decoding the artifact with
the same table (in its code → symbol reverse view) reproduces the stream
exactly. -/
theorem C1_roundtrip_two_distinct (data : List Nat)
    (h2 : 2 ≤ (build_frequency_table data).length) :
    roundtrip data = data := by
  have H := pipeline_symbol_conditions data h2
  set TBL := build_encoding_table (build_huffman_tree (build_frequency_table data)) with htbl
  set enc := encode_data TBL data with henc
  set P := 8 - enc.length % 8 with hP
  have harith := padding_arith enc.length
  have hrt : roundtrip data
      = (decode_loop (reverse_table TBL)
          (strip_padding
            (((pack_bytes (enc ++ List.replicate P false).length
                (enc ++ List.replicate P false)).map byteToBits).flatten)
            P)
          [] []).1 := rfl
  rw [hrt]
  rw [pack_bytes_unpack _ _ (Nat.le_refl _)
    (by simp only [List.length_append, List.length_replicate, hP]; omega)]
  rw [strip_padding_padded enc P (by omega)]
  rw [henc, decode_all TBL data [] H]
  simp

/-- Witness for `C1_roundtrip_two_distinct` on the stream `b"ab"`. -/
theorem C1_roundtrip_two_distinct_witness :
    2 ≤ (build_frequency_table [97, 98]).length ∧ roundtrip [97, 98] = [97, 98] :=
  ⟨by decide, C1_roundtrip_two_distinct [97, 98] (by decide)⟩

/-- C3, corrected: on any non-empty input the header padding written by the
encoder lies in 1..8 (it is 8, not 0, when the encoded bit-string is already
byte-aligned), and the decoder's stripping drops exactly that many trailing
bits, recovering exactly the encoded bit-string. -/
theorem C3_padding_bounds (data : List Nat) (hne : data ≠ []) :
    1 ≤ (compress_pipeline data).1 ∧ (compress_pipeline data).1 ≤ 8 ∧
      stripped_bits (compress_pipeline data).1 (compress_pipeline data).2
        = encode_data (build_encoding_table (build_huffman_tree (build_frequency_table data)))
            data ∧
      (((compress_pipeline data).2.map byteToBits).flatten).length
        = (stripped_bits (compress_pipeline data).1 (compress_pipeline data).2).length
          + (compress_pipeline data).1 := by
  set TBL := build_encoding_table (build_huffman_tree (build_frequency_table data)) with htbl
  set enc := encode_data TBL data with henc
  have harith := padding_arith enc.length
  have hpad : (compress_pipeline data).1 = 8 - enc.length % 8 := rfl
  have hpay : (compress_pipeline data).2
      = pack_bytes (enc ++ List.replicate (8 - enc.length % 8) false).length
          (enc ++ List.replicate (8 - enc.length % 8) false) := rfl
  have hbits : ((compress_pipeline data).2.map byteToBits).flatten
      = enc ++ List.replicate (8 - enc.length % 8) false := by
    rw [hpay]
    exact pack_bytes_unpack _ _ (Nat.le_refl _)
      (by simp only [List.length_append, List.length_replicate]; omega)
  have hstrip : stripped_bits (compress_pipeline data).1 (compress_pipeline data).2 = enc := by
    unfold stripped_bits
    rw [hbits, hpad]
    exact strip_padding_padded enc _ (by omega)
  refine ⟨by rw [hpad]; omega, by rw [hpad]; omega, by rw [hstrip], ?_⟩
  rw [hbits, hstrip, hpad]
  simp only [List.length_append, List.length_replicate]

/-- Witness for `C3_padding_bounds` on the input `b"ab"`. -/
theorem C3_padding_bounds_witness :
    ([97, 98] : List Nat) ≠ [] ∧
      (1 ≤ (compress_pipeline [97, 98]).1 ∧ (compress_pipeline [97, 98]).1 ≤ 8 ∧
        stripped_bits (compress_pipeline [97, 98]).1 (compress_pipeline [97, 98]).2
          = encode_data
              (build_encoding_table (build_huffman_tree (build_frequency_table [97, 98])))
              [97, 98] ∧
        (((compress_pipeline [97, 98]).2.map byteToBits).flatten).length
          = (stripped_bits (compress_pipeline [97, 98]).1
              (compress_pipeline [97, 98]).2).length
            + (compress_pipeline [97, 98]).1) :=
  ⟨by decide, C3_padding_bounds [97, 98] (by decide)⟩

/-- Reading a just-written slot. -/
theorem getD_set_self {α : Type} (l : List α) (i : Nat) (a d : α) (h : i < l.length) :
    (l.set i a).getD i d = a := by
  simp [List.getD_eq_getElem?_getD, List.getElem?_set_self, h]

/-- Reading a different slot after a write. -/
theorem getD_set_other {α : Type} (l : List α) (i j : Nat) (a d : α) (h : i ≠ j) :
    (l.set i a).getD j d = l.getD j d := by
  simp [List.getD_eq_getElem?_getD, List.getElem?_set_ne h]

/-- Reading inside the left part of an append. -/
theorem getD_append_lt {α : Type} (l1 l2 : List α) (i : Nat) (d : α) (h : i < l1.length) :
    (l1 ++ l2).getD i d = l1.getD i d := by
  simp [List.getD_eq_getElem?_getD, List.getElem?_append, h]

/-- Reading `dropLast` inside its range. -/
theorem getD_dropLast {α : Type} (l : List α) (i : Nat) (d : α) (h : i < l.length - 1) :
    l.dropLast.getD i d = l.getD i d := by
  rw [List.getD_eq_getElem?_getD, List.getD_eq_getElem?_getD, List.getElem?_dropLast]
  rw [if_pos (by simpa using h)]

/-- Filling the hole at `pos` with `newitem` yields a heap, provided the
rest of the array is heap-ordered away from the hole, the hole's children
dominate `newitem`, and the hole's parent is below `newitem`. -/
theorem set_hole_isHeap (heap : List HuffmanNode) (newitem : HuffmanNode) (pos : Nat)
    (hlen : pos < heap.length)
    (hb : ∀ i, 0 < i → i < heap.length → i ≠ pos → (i - 1) / 2 ≠ pos →
      (heap.getD ((i - 1) / 2) dfltNode).freq ≤ (heap.getD i dfltNode).freq)
    (hc : ∀ i, 0 < i → i < heap.length → (i - 1) / 2 = pos →
      newitem.freq ≤ (heap.getD i dfltNode).freq)
    (hparent : 0 < pos → (heap.getD ((pos - 1) / 2) dfltNode).freq ≤ newitem.freq) :
    IsHeap (heap.set pos newitem) := by
  intro i hi hiLen
  rw [List.length_set] at hiLen
  by_cases hip : i = pos
  · subst hip
    rw [getD_set_self _ _ _ _ hlen,
      getD_set_other _ _ _ _ _ (by omega : i ≠ (i - 1) / 2)]
    exact hparent hi
  · by_cases hqp : (i - 1) / 2 = pos
    · rw [hqp, getD_set_self _ _ _ _ hlen,
        getD_set_other _ _ _ _ _ (fun h => hip h.symm)]
      exact hc i hi hiLen hqp
    · rw [getD_set_other _ _ _ _ _ (fun h => hqp h.symm),
        getD_set_other _ _ _ _ _ (fun h => hip h.symm)]
      exact hb i hi hiLen hip hqp

/-- Correctness of the `_siftdown` loop (with `startpos = 0`, the only way
the program calls it): starting from an array that is heap-ordered away
from the hole `pos`, whose hole-children dominate both `newitem` and the
hole's parent, the loop produces a heap. -/
theorem siftdownLoop_isHeap :
    ∀ (fuel : Nat) (heap : List HuffmanNode) (newitem : HuffmanNode) (pos : Nat),
      pos ≤ fuel → pos < heap.length →
      (∀ i, 0 < i → i < heap.length → i ≠ pos → (i - 1) / 2 ≠ pos →
        (heap.getD ((i - 1) / 2) dfltNode).freq ≤ (heap.getD i dfltNode).freq) →
      (∀ i, 0 < i → i < heap.length → (i - 1) / 2 = pos →
        newitem.freq ≤ (heap.getD i dfltNode).freq) →
      (∀ i, 0 < i → i < heap.length → (i - 1) / 2 = pos → 0 < pos →
        (heap.getD ((pos - 1) / 2) dfltNode).freq ≤ (heap.getD i dfltNode).freq) →
      IsHeap (siftdownLoop fuel heap 0 newitem pos) := by
  intro fuel
  induction fuel with
  | zero =>
      intro heap newitem pos hfuel hlen hb hc _
      have hpos0 : pos = 0 := by omega
      subst hpos0
      exact set_hole_isHeap heap newitem 0 hlen hb hc (fun h => absurd h (by omega))
  | succ f ih =>
      intro heap newitem pos hfuel hlen hb hc hd
      simp only [siftdownLoop]
      by_cases h0 : 0 < pos
      · rw [if_pos h0]
        by_cases hlt : newitem.freq < (heap.getD ((pos - 1) / 2) dfltNode).freq
        · rw [if_pos hlt]
          apply ih
          · omega
          · rw [List.length_set]; omega
          · intro i hi hiLen hip hqp
            rw [List.length_set] at hiLen
            have hipos : i ≠ pos := by
              intro hc2
              subst hc2
              exact hqp rfl
            by_cases hq : (i - 1) / 2 = pos
            · rw [hq, getD_set_self _ _ _ _ hlen,
                getD_set_other _ _ _ _ _ (fun h => hipos h.symm)]
              exact hd i hi hiLen hq h0
            · rw [getD_set_other _ _ _ _ _ (fun h => hq h.symm),
                getD_set_other _ _ _ _ _ (fun h => hipos h.symm)]
              exact hb i hi hiLen hipos hq
          · intro i hi hiLen hq
            rw [List.length_set] at hiLen
            by_cases hip : i = pos
            · subst hip
              rw [getD_set_self _ _ _ _ hlen]
              exact Nat.le_of_lt hlt
            · rw [getD_set_other _ _ _ _ _ (fun h => hip h.symm)]
              have hstep := hb i hi hiLen hip (by omega : (i - 1) / 2 ≠ pos)
              rw [hq] at hstep
              exact le_trans (Nat.le_of_lt hlt) hstep
          · intro i hi hiLen hq hpp
            rw [List.length_set] at hiLen
            have hgp : (((pos - 1) / 2) - 1) / 2 ≠ pos := by omega
            rw [getD_set_other _ _ _ _ _ (fun h => hgp h.symm)]
            have hpar : (heap.getD ((((pos - 1) / 2) - 1) / 2) dfltNode).freq
                ≤ (heap.getD ((pos - 1) / 2) dfltNode).freq := by
              refine hb ((pos - 1) / 2) hpp (by omega) (by omega) (by omega)
            by_cases hip : i = pos
            · subst hip
              rw [getD_set_self _ _ _ _ hlen]
              exact hpar
            · rw [getD_set_other _ _ _ _ _ (fun h => hip h.symm)]
              have hstep := hb i hi hiLen hip (by omega : (i - 1) / 2 ≠ pos)
              rw [hq] at hstep
              exact le_trans hpar hstep
        · rw [if_neg hlt]
          exact set_hole_isHeap heap newitem pos hlen hb hc
            (fun _ => Nat.le_of_not_lt hlt)
      · rw [if_neg h0]
        have hpos0 : pos = 0 := by omega
        subst hpos0
        exact set_hole_isHeap heap newitem 0 hlen hb hc (fun h => absurd h (by omega))

/-- Correctness of the `_siftup` loop (with `startpos = 0`): starting from
an array heap-ordered away from the hole `pos` whose hole-children dominate
the hole's parent, the loop produces a heap containing `newitem`. -/
theorem siftupLoop_isHeap :
    ∀ (fuel : Nat) (heap : List HuffmanNode) (newitem : HuffmanNode) (pos : Nat),
      heap.length ≤ fuel + pos → pos < heap.length →
      (∀ i, 0 < i → i < heap.length → i ≠ pos → (i - 1) / 2 ≠ pos →
        (heap.getD ((i - 1) / 2) dfltNode).freq ≤ (heap.getD i dfltNode).freq) →
      (∀ i, 0 < i → i < heap.length → (i - 1) / 2 = pos → 0 < pos →
        (heap.getD ((pos - 1) / 2) dfltNode).freq ≤ (heap.getD i dfltNode).freq) →
      IsHeap (siftupLoop fuel heap 0 newitem pos) := by
  intro fuel
  induction fuel with
  | zero =>
      intro heap newitem pos hfuel hlen _ _
      exact ((by omega : False)).elim
  | succ f ih =>
      intro fheap newitem pos hfuel hlen hb hg
      simp only [siftupLoop]
      by_cases hchild : 2 * pos + 1 < fheap.length
      · rw [if_pos hchild]
        by_cases hpick : 2 * pos + 1 + 1 < fheap.length ∧
            ¬ (fheap.getD (2 * pos + 1) dfltNode).freq
              < (fheap.getD (2 * pos + 1 + 1) dfltNode).freq
        · rw [if_pos hpick]
          have hsel : ∀ i, 0 < i → i < fheap.length → (i - 1) / 2 = pos →
              i ≠ 2 * pos + 1 + 1 →
              (fheap.getD (2 * pos + 1 + 1) dfltNode).freq
                ≤ (fheap.getD i dfltNode).freq := by
            intro i _ _ hq hne
            have : i = 2 * pos + 1 := by omega
            subst this
            exact Nat.le_of_not_lt hpick.2
          apply ih
          · rw [List.length_set]; omega
          · rw [List.length_set]; exact hpick.1
          · intro i hi hiLen hip hqp
            rw [List.length_set] at hiLen
            by_cases hipos : i = pos
            · subst hipos
              rw [getD_set_other _ _ _ _ _ (by omega : i ≠ (i - 1) / 2),
                getD_set_self _ _ _ _ hlen]
              exact hg (2 * i + 1 + 1) (by omega) hpick.1 (by omega) hi
            · by_cases hq : (i - 1) / 2 = pos
              · rw [hq, getD_set_self _ _ _ _ hlen,
                  getD_set_other _ _ _ _ _ (fun h => hipos h.symm)]
                exact hsel i hi hiLen hq hip
              · rw [getD_set_other _ _ _ _ _ (fun h => hq h.symm),
                  getD_set_other _ _ _ _ _ (fun h => hipos h.symm)]
                exact hb i hi hiLen hipos hq
          · intro i hi hiLen hq hcp
            rw [List.length_set] at hiLen
            have hqpos : (2 * pos + 1 + 1 - 1) / 2 = pos := by omega
            rw [hqpos, getD_set_self _ _ _ _ hlen]
            have hine : i ≠ pos := by omega
            rw [getD_set_other _ _ _ _ _ (fun h => hine h.symm)]
            have hstep := hb i hi hiLen hine (by omega : (i - 1) / 2 ≠ pos)
            rw [hq] at hstep
            exact hstep
        · rw [if_neg hpick]
          have hsel : ∀ i, 0 < i → i < fheap.length → (i - 1) / 2 = pos →
              i ≠ 2 * pos + 1 →
              (fheap.getD (2 * pos + 1) dfltNode).freq
                ≤ (fheap.getD i dfltNode).freq := by
            intro i _ hiLen hq hne
            have hi2 : i = 2 * pos + 1 + 1 := by omega
            subst hi2
            have hlt : (fheap.getD (2 * pos + 1) dfltNode).freq
                < (fheap.getD (2 * pos + 1 + 1) dfltNode).freq := by
              by_contra hcon
              exact hpick ⟨hiLen, hcon⟩
            exact Nat.le_of_lt hlt
          apply ih
          · rw [List.length_set]; omega
          · rw [List.length_set]; exact hchild
          · intro i hi hiLen hip hqp
            rw [List.length_set] at hiLen
            by_cases hipos : i = pos
            · subst hipos
              rw [getD_set_other _ _ _ _ _ (by omega : i ≠ (i - 1) / 2),
                getD_set_self _ _ _ _ hlen]
              exact hg (2 * i + 1) (by omega) hchild (by omega) hi
            · by_cases hq : (i - 1) / 2 = pos
              · rw [hq, getD_set_self _ _ _ _ hlen,
                  getD_set_other _ _ _ _ _ (fun h => hipos h.symm)]
                exact hsel i hi hiLen hq hip
              · rw [getD_set_other _ _ _ _ _ (fun h => hq h.symm),
                  getD_set_other _ _ _ _ _ (fun h => hipos h.symm)]
                exact hb i hi hiLen hipos hq
          · intro i hi hiLen hq hcp
            rw [List.length_set] at hiLen
            have hqpos : (2 * pos + 1 - 1) / 2 = pos := by omega
            rw [hqpos, getD_set_self _ _ _ _ hlen]
            have hine : i ≠ pos := by omega
            rw [getD_set_other _ _ _ _ _ (fun h => hine h.symm)]
            have hstep := hb i hi hiLen hine (by omega : (i - 1) / 2 ≠ pos)
            rw [hq] at hstep
            exact hstep
      · rw [if_neg hchild]
        apply siftdownLoop_isHeap pos (fheap.set pos newitem) newitem pos (Nat.le_refl _)
          (by rw [List.length_set]; exact hlen)
        · intro i hi hiLen hip hqp
          rw [List.length_set] at hiLen
          rw [getD_set_other _ _ _ _ _ (fun h => hqp h.symm),
            getD_set_other _ _ _ _ _ (fun h => hip h.symm)]
          exact hb i hi hiLen hip hqp
        · intro i hi hiLen hq
          rw [List.length_set] at hiLen
          exact ((by omega : False)).elim
        · intro i hi hiLen hq _
          rw [List.length_set] at hiLen
          exact ((by omega : False)).elim

/-- `heappush` preserves the heap invariant. -/
theorem heappush_isHeap (heap : List HuffmanNode) (item : HuffmanNode)
    (h : IsHeap heap) : IsHeap (heappush heap item) := by
  unfold heappush
  apply siftdownLoop_isHeap heap.length (heap ++ [item]) item heap.length
    (Nat.le_refl _) (by simp)
  · intro i hi hiLen hip hqp
    simp only [List.length_append, List.length_cons, List.length_nil] at hiLen
    have hi' : i < heap.length := by omega
    rw [getD_append_lt _ _ _ _ hi', getD_append_lt _ _ _ _ (by omega)]
    exact h i hi hi'
  · intro i hi hiLen hq
    simp only [List.length_append, List.length_cons, List.length_nil] at hiLen
    exact ((by omega : False)).elim
  · intro i hi hiLen hq _
    simp only [List.length_append, List.length_cons, List.length_nil] at hiLen
    exact ((by omega : False)).elim

/-- In a heap, the root is a minimum (by index). -/
theorem isHeap_root_min (heap : List HuffmanNode) (hh : IsHeap heap) :
    ∀ i, i < heap.length →
      (heap.getD 0 dfltNode).freq ≤ (heap.getD i dfltNode).freq := by
  intro i
  induction i using Nat.strong_induction_on with
  | _ i ih =>
    intro hi
    rcases Nat.eq_zero_or_pos i with h0 | h0
    · subst h0
      exact Nat.le_refl _
    · exact le_trans (ih ((i - 1) / 2) (by omega) (by omega)) (hh i h0 hi)

/-- In a heap, the root is below every member. -/
theorem isHeap_root_min_mem (heap : List HuffmanNode) (hh : IsHeap heap) :
    ∀ n ∈ heap, (heap.getD 0 dfltNode).freq ≤ n.freq := by
  intro n hn
  obtain ⟨i, hi, hget⟩ := List.getElem_of_mem hn
  have := isHeap_root_min heap hh i hi
  rwa [List.getD_eq_getElem heap dfltNode hi, hget] at this

/-- Full specification of `heappop` on a non-empty heap: it succeeds, the
popped element together with the rest permutes the input, the rest is again
a heap, and the popped element is a minimum of the input. -/
theorem heappop_spec (heap : List HuffmanNode) (hne : heap ≠ []) (hh : IsHeap heap) :
    ∃ r t, heappop heap = some (r, t) ∧ (r :: t).Perm heap ∧ IsHeap t ∧
      ∀ n ∈ heap, r.freq ≤ n.freq := by
  obtain ⟨r, t, heq, hperm⟩ := heappop_perm heap hne
  refine ⟨r, t, heq, hperm, ?_, ?_⟩
  · -- the remaining heap is a heap
    unfold heappop at heq
    rw [List.getLast?_eq_getLast heap hne] at heq
    cases hrest : heap.dropLast with
    | nil =>
        rw [hrest] at heq
        simp only [Option.some.injEq, Prod.mk.injEq] at heq
        rw [← heq.2]
        intro i hi hiLen
        simp at hiLen
    | cons x rest' =>
        rw [hrest] at heq
        simp only [Option.some.injEq, Prod.mk.injEq] at heq
        rw [← heq.2]
        simp only [List.set_cons_zero, List.getD_cons_zero]
        have hlen2 : (heap.getLast hne :: rest').length = heap.length - 1 := by
          have := congrArg List.length hrest
          simp only [List.length_dropLast, List.length_cons] at this ⊢
          omega
        apply siftupLoop_isHeap _ _ _ 0 (by omega) (by simp)
        · intro i hi hiLen hip hqp
          rw [hlen2] at hiLen
          have hqr : 0 < (i - 1) / 2 ∨ (i - 1) / 2 = 0 := by omega
          have hread : ∀ j, j < heap.length - 1 → 0 < j →
              ((heap.getLast hne :: rest').getD j dfltNode) = heap.getD j dfltNode := by
            intro j hj hj0
            have : (heap.getLast hne :: rest').getD j dfltNode
                = (x :: rest').getD j dfltNode := by
              cases j with
              | zero => omega
              | succ j' => simp [List.getD_cons_succ]
            rw [this, ← hrest, getD_dropLast _ _ _ hj]
          rw [hread i hiLen hi, hread ((i - 1) / 2) (by omega) (by omega)]
          exact hh i hi (by omega)
        · intro i hi hiLen hq h0
          omega
  · -- the popped element is minimal
    unfold heappop at heq
    rw [List.getLast?_eq_getLast heap hne] at heq
    cases hrest : heap.dropLast with
    | nil =>
        rw [hrest] at heq
        simp only [Option.some.injEq, Prod.mk.injEq] at heq
        have hone : heap = [heap.getLast hne] := by
          conv_lhs => rw [← List.dropLast_append_getLast hne, hrest]
          rfl
        intro n hn
        rw [hone] at hn
        simp only [List.mem_singleton] at hn
        rw [← heq.1, hn]
    | cons x rest' =>
        rw [hrest] at heq
        simp only [Option.some.injEq, Prod.mk.injEq] at heq
        have hx : heap.getD 0 dfltNode = x := by
          have hsplit : heap = (x :: rest') ++ [heap.getLast hne] := by
            conv_lhs => rw [← List.dropLast_append_getLast hne, hrest]
          rw [hsplit]
          rfl
        intro n hn
        rw [← heq.1, ← hx]
        exact isHeap_root_min_mem heap hh n hn

/-- Deepening a subtree by one level adds its leaf weight to its cost. -/
theorem treeCost_succ : ∀ (T : HuffmanNode) (k : Nat),
    treeCost T (k + 1) = treeCost T k + T.leafWeight := by
  intro T
  induction T with
  | leaf c f =>
      intro k
      simp [treeCost, HuffmanNode.leafWeight, HuffmanNode.leavesOf, Nat.mul_succ]
  | internal f l r ihl ihr =>
      intro k
      simp only [treeCost, HuffmanNode.leafWeight, HuffmanNode.leavesOf, List.map_append,
        List.sum_append, ihl, ihr]
      have hl : l.leafWeight = (l.leavesOf.map Prod.snd).sum := rfl
      have hr : r.leafWeight = (r.leavesOf.map Prod.snd).sum := rfl
      omega

/-- For a sum-consistent tree, the leaf weight is the root frequency. -/
theorem leafWeight_eq_freq : ∀ (T : HuffmanNode), T.sumOk = true →
    T.leafWeight = T.freq := by
  intro T
  induction T with
  | leaf c f =>
      intro _
      simp [HuffmanNode.leafWeight, HuffmanNode.leavesOf, HuffmanNode.freq]
  | internal f l r ihl ihr =>
      intro h
      simp only [HuffmanNode.sumOk, Bool.and_eq_true, decide_eq_true_eq] at h
      simp only [HuffmanNode.leafWeight, HuffmanNode.leavesOf, List.map_append,
        List.sum_append, HuffmanNode.freq]
      have hl := ihl h.1.2
      have hr := ihr h.2
      simp only [HuffmanNode.leafWeight] at hl hr
      omega

/-- The merge-recurrence cost does not depend on the fuel once the fuel
covers the list length. -/
theorem mergeCostGo_fuel :
    ∀ (f1 f2 : Nat) (s : List Nat), s.length ≤ f1 + 1 → s.length ≤ f2 + 1 →
      mergeCostGo f1 s = mergeCostGo f2 s := by
  intro f1
  induction f1 with
  | zero =>
      intro f2 s h1 _
      match s, h1 with
      | [], _ => cases f2 <;> rfl
      | [a], _ => cases f2 <;> rfl
  | succ f ih =>
      intro f2 s h1 h2
      match s, h1, h2 with
      | [], _, _ => cases f2 <;> rfl
      | [a], _, _ => cases f2 <;> rfl
      | a :: b :: r, h1, h2 =>
          have hlen : (a :: b :: r).length = r.length + 2 := by simp
          rw [hlen] at h1 h2
          cases f2 with
          | zero => omega
          | succ f2' =>
              simp only [mergeCostGo]
              rw [ih f2' _ (by simp [List.orderedInsert_length]; omega)
                (by simp [List.orderedInsert_length]; omega)]

/-- The merge-recurrence cost is invariant under permutation of the
weights. -/
theorem mergeCost_perm (ws1 ws2 : List Nat) (h : ws1.Perm ws2) :
    mergeCost ws1 = mergeCost ws2 := by
  unfold mergeCost
  have hsort : ws1.insertionSort (· ≤ ·) = ws2.insertionSort (· ≤ ·) :=
    List.eq_of_perm_of_sorted
      ((List.perm_insertionSort _ ws1).trans (h.trans (List.perm_insertionSort _ ws2).symm))
      (List.sorted_insertionSort _ ws1) (List.sorted_insertionSort _ ws2)
  rw [hsort, h.length_eq]

/-- One step of the merge recurrence: when `n1` is a minimum of `W` and `n2`
a minimum of the rest, merging them first costs their sum plus the cost of
the reduced problem. -/
theorem mergeCost_step (W rest : List Nat) (n1 n2 : Nat)
    (hperm : W.Perm (n1 :: n2 :: rest))
    (h1 : ∀ x ∈ W, n1 ≤ x) (h2 : ∀ x ∈ n2 :: rest, n2 ≤ x) :
    mergeCost W = n1 + n2 + mergeCost ((n1 + n2) :: rest) := by
  have hsortedW := List.sorted_insertionSort (· ≤ ·) W
  have hpermW := List.perm_insertionSort (· ≤ ·) W
  have hlenW : W.length = rest.length + 2 := by simpa using hperm.length_eq
  have hlenS : (W.insertionSort (· ≤ ·)).length = rest.length + 2 := by
    rw [hpermW.length_eq, hlenW]
  obtain ⟨s0, S1, hS0⟩ : ∃ s0 S1, W.insertionSort (· ≤ ·) = s0 :: S1 := by
    cases hs : W.insertionSort (· ≤ ·) with
    | nil => rw [hs] at hlenS; simp at hlenS
    | cons a l => exact ⟨a, l, rfl⟩
  obtain ⟨s1, tail, hS1⟩ : ∃ s1 tail, S1 = s1 :: tail := by
    cases hs : S1 with
    | nil => rw [hS0, hs] at hlenS; simp at hlenS
    | cons a l => exact ⟨a, l, rfl⟩
  rw [hS1] at hS0
  rw [hS0] at hsortedW hpermW
  rw [List.sorted_cons] at hsortedW
  have hsorted1 := hsortedW.2
  rw [List.sorted_cons] at hsorted1
  have hs0 : s0 = n1 := by
    have hn1S : n1 ∈ s0 :: s1 :: tail :=
      hpermW.symm.subset (hperm.symm.subset (by simp))
    have hle1 : n1 ≤ s0 := h1 s0 (hpermW.subset (by simp))
    rcases List.mem_cons.1 hn1S with h | h
    · exact h.symm
    · exact Nat.le_antisymm (hsortedW.1 n1 h) hle1
  subst hs0
  have htail_perm : (n2 :: rest).Perm (s1 :: tail) :=
    List.Perm.cons_inv (hperm.symm.trans hpermW.symm)
  have hs1 : s1 = n2 := by
    have hn2S : n2 ∈ s1 :: tail := htail_perm.subset (by simp)
    have hle2 : n2 ≤ s1 := h2 s1 (htail_perm.symm.subset (by simp))
    rcases List.mem_cons.1 hn2S with h | h
    · exact h.symm
    · exact Nat.le_antisymm (hsorted1.1 n2 h) hle2
  subst hs1
  have hrt : rest.Perm tail := List.Perm.cons_inv htail_perm
  have htailsorted : List.Sorted (· ≤ ·) tail := hsorted1.2
  have e1 : mergeCost W = mergeCostGo (rest.length + 2) (s0 :: s1 :: tail) := by
    rw [mergeCost, hS0, hlenW]
  have e3 : rest.insertionSort (· ≤ ·) = tail :=
    List.eq_of_perm_of_sorted ((List.perm_insertionSort _ rest).trans hrt)
      (List.sorted_insertionSort _ rest) htailsorted
  have e2 : mergeCost ((s0 + s1) :: rest)
      = mergeCostGo (rest.length + 1)
          (List.orderedInsert (· ≤ ·) (s0 + s1) tail) := by
    rw [mergeCost]
    simp only [List.insertionSort, e3, List.length_cons]
  rw [e1, e2]
  simp only [mergeCostGo]

/-- Cost bookkeeping of the merge loop on a heap of sum-consistent trees:
the final total tree cost is the current total plus the greedy merge cost
of the current root weights.  Uses that each `heappop` returns a minimum. -/
theorem buildLoop_cost :
    ∀ (fuel : Nat) (heap : List HuffmanNode),
      IsHeap heap → (∀ n ∈ heap, HuffmanNode.sumOk n = true) → heap.length ≤ fuel + 1 →
      ((buildLoop fuel heap).map (fun T => treeCost T 0)).sum
        = (heap.map (fun T => treeCost T 0)).sum + mergeCost (heap.map HuffmanNode.freq) := by
  intro fuel
  induction fuel with
  | zero =>
      intro heap _ _ hlen
      match heap, hlen with
      | [], _ => rfl
      | [T], _ => rfl
  | succ f ih =>
      intro heap hheap hsum hlen
      by_cases hlt : 1 < heap.length
      · have hne : heap ≠ [] := by
          intro hc
          rw [hc] at hlt
          simp at hlt
        obtain ⟨n1, t1, he1, hp1, hh1, hmin1⟩ := heappop_spec heap hne hheap
        have ht1ne : t1 ≠ [] := by
          have := hp1.length_eq
          simp only [List.length_cons] at this
          intro hc
          rw [hc] at this
          simp at this
          omega
        obtain ⟨n2, t2, he2, hp2, hh2, hmin2⟩ := heappop_spec t1 ht1ne hh1
        have hstep : buildLoop (f + 1) heap
            = buildLoop f
                (heappush t2 (HuffmanNode.internal (n1.freq + n2.freq) n1 n2)) := by
          simp only [buildLoop, if_pos hlt, he1, he2]
        rw [hstep]
        have hperm_heap : heap.Perm (n1 :: n2 :: t2) :=
          (hp1.symm).trans ((hp2.symm).cons n1)
        have hsum1 : HuffmanNode.sumOk n1 = true :=
          hsum n1 (hperm_heap.symm.subset (by simp))
        have hsum2 : HuffmanNode.sumOk n2 = true :=
          hsum n2 (hperm_heap.symm.subset (by simp))
        have hsumt2 : ∀ n ∈ t2, HuffmanNode.sumOk n = true := by
          intro n hn
          exact hsum n (hperm_heap.symm.subset (by simp [hn]))
        have hpushperm := heappush_perm t2 (HuffmanNode.internal (n1.freq + n2.freq) n1 n2)
        rw [ih _ (heappush_isHeap t2 _ hh2) ?hsump ?hlenp]
        case hsump =>
          intro n hn
          rcases List.mem_cons.1 (hpushperm.subset hn) with rfl | hn'
          · simp [HuffmanNode.sumOk, hsum1, hsum2]
          · exact hsumt2 n hn'
        case hlenp =>
          have hl1 := hpushperm.length_eq
          have hl2 := hperm_heap.length_eq
          simp only [List.length_cons] at hl1 hl2
          omega
        -- sums over the pushed heap
        have hsum_push : ((heappush t2 (HuffmanNode.internal (n1.freq + n2.freq) n1 n2)).map
              (fun T => treeCost T 0)).sum
            = treeCost n1 0 + n1.leafWeight + (treeCost n2 0 + n2.leafWeight)
              + ((t2.map (fun T => treeCost T 0)).sum) := by
          rw [(hpushperm.map (fun T => treeCost T 0)).sum_eq]
          simp only [List.map_cons, List.sum_cons, treeCost]
          rw [treeCost_succ, treeCost_succ]
        have hfreq_push : ((heappush t2 (HuffmanNode.internal (n1.freq + n2.freq) n1 n2)).map
              HuffmanNode.freq).Perm ((n1.freq + n2.freq) :: t2.map HuffmanNode.freq) := by
          have := hpushperm.map HuffmanNode.freq
          simpa [HuffmanNode.freq] using this
        have hsum_heap : (heap.map (fun T => treeCost T 0)).sum
            = treeCost n1 0 + treeCost n2 0 + (t2.map (fun T => treeCost T 0)).sum := by
          rw [(hperm_heap.map (fun T => treeCost T 0)).sum_eq]
          simp only [List.map_cons, List.sum_cons]
          omega
        have hmerge : mergeCost (heap.map HuffmanNode.freq)
            = n1.freq + n2.freq + mergeCost ((n1.freq + n2.freq) :: t2.map HuffmanNode.freq) := by
          apply mergeCost_step _ (t2.map HuffmanNode.freq) n1.freq n2.freq
          · simpa using hperm_heap.map HuffmanNode.freq
          · intro x hx
            obtain ⟨n, hn, rfl⟩ := List.mem_map.1 hx
            exact hmin1 n hn
          · intro x hx
            rcases List.mem_cons.1 hx with rfl | hx'
            · exact Nat.le_refl _
            · obtain ⟨n, hn, rfl⟩ := List.mem_map.1 hx'
              exact hmin2 n (hp2.subset (List.mem_cons_of_mem _ hn))
        rw [hsum_push, hsum_heap, hmerge,
          mergeCost_perm _ _ hfreq_push,
          leafWeight_eq_freq n1 hsum1, leafWeight_eq_freq n2 hsum2]
        omega
      · simp only [buildLoop, if_neg hlt]
        have : heap.length ≤ 1 := by omega
        match heap, this with
        | [], _ => rfl
        | [T], _ => rfl

/-- The heap seeded by repeated `heappush` is a heap. -/
theorem seed_isHeap (t : List (Nat × Nat)) :
    ∀ (h0 : List HuffmanNode), IsHeap h0 →
      IsHeap (t.foldl (fun h p => heappush h (HuffmanNode.leaf p.1 p.2)) h0) := by
  induction t with
  | nil => intro h0 h; exact h
  | cons p t ih =>
      intro h0 h
      simp only [List.foldl_cons]
      exact ih _ (heappush_isHeap h0 _ h)

/-- The cost of the tree built by `build_huffman_tree` equals the greedy
merge cost of the table's weights. -/
theorem build_huffman_tree_cost (t : List (Nat × Nat)) (hne : t ≠ []) :
    ∃ root, build_huffman_tree t = some root ∧
      treeCost root 0 = mergeCost (t.map Prod.snd) := by
  set seed := t.foldl (fun h p => heappush h (HuffmanNode.leaf p.1 p.2)) [] with hseed
  have hsp : seed.Perm (t.map fun p => HuffmanNode.leaf p.1 p.2) := by
    have := seed_perm t []
    rwa [List.append_nil] at this
  have hlen : seed.length = t.length := by simpa using hsp.length_eq
  have hsne : seed ≠ [] := by
    intro hc
    rw [hc] at hlen
    exact hne (List.length_eq_zero.1 hlen.symm)
  have hheap : IsHeap seed := seed_isHeap t [] (fun i hi hiLen => by simp at hiLen)
  have hsums : ∀ n ∈ seed, HuffmanNode.sumOk n = true := by
    intro n hn
    obtain ⟨p, hp, rfl⟩ := List.mem_map.1 (hsp.subset hn)
    rfl
  have hcost := buildLoop_cost seed.length seed hheap hsums (by omega)
  have hloop_ne := buildLoop_ne_nil seed.length seed hsne
  have hloop_le := buildLoop_length_le seed.length seed (by omega)
  cases hb : buildLoop seed.length seed with
  | nil => exact absurd hb hloop_ne
  | cons root rest =>
      rw [hb] at hloop_le
      simp only [List.length_cons] at hloop_le
      have hrest : rest = [] := List.length_eq_zero.1 (by omega)
      subst hrest
      have hbt : build_huffman_tree t
          = (match buildLoop seed.length seed with
             | [] => none
             | x :: _ => some x) := by
        rw [hseed]
        rfl
      rw [hb] at hbt
      refine ⟨root, hbt, ?_⟩
      rw [hb] at hcost
      simp only [List.map_cons, List.map_nil, List.sum_cons, List.sum_nil] at hcost
      have hzero : (seed.map (fun T => treeCost T 0)).sum = 0 := by
        apply List.sum_eq_zero
        intro x hx
        obtain ⟨n, hn, rfl⟩ := List.mem_map.1 hx
        obtain ⟨p, hp, rfl⟩ := List.mem_map.1 (hsp.subset hn)
        simp [treeCost]
      have hw : (seed.map HuffmanNode.freq).Perm (t.map Prod.snd) := by
        have := hsp.map HuffmanNode.freq
        simpa [List.map_map, Function.comp, HuffmanNode.freq] using this
      rw [hzero, mergeCost_perm _ _ hw] at hcost
      omega

/-- The traversal records as many codes as there are leaves. -/
theorem pathCodes_length (T : HuffmanNode) (pre : List Bool) :
    (pathCodes T pre).length = T.leavesOf.length := by
  have := congrArg List.length (pathCodes_fst T pre)
  simpa using this

/-- In a dict with distinct keys, the read of a present key returns its
value. -/
theorem dictGet_of_mem_nodup :
    ∀ (table : List (Nat × List Bool)), (table.map Prod.fst).Nodup →
      ∀ (c : Nat) (w : List Bool), (c, w) ∈ table → dictGet table c = w := by
  intro table
  induction table with
  | nil => intro _ c w h; simp at h
  | cons p rest ih =>
      obtain ⟨k, v⟩ := p
      intro hnd c w hmem
      simp only [List.map_cons, List.nodup_cons] at hnd
      rcases List.mem_cons.1 hmem with he | hm
      · injection he with h1 h2
        subst h1
        simp [dictGet, h2]
      · have hk : k ≠ c := by
          intro h
          subst h
          exact hnd.1 (List.mem_map_of_mem Prod.fst hm)
        simp only [dictGet, if_neg hk]
        exact ih hnd.2 c w hm

/-- Summing frequency × code length along the aligned leaf and code lists
computes the weighted external path length. -/
theorem zip_cost :
    ∀ (T : HuffmanNode) (pre : List Bool),
      ((T.leavesOf.zip (pathCodes T pre)).map (fun q => q.1.2 * q.2.2.length)).sum
        = treeCost T pre.length := by
  intro T
  induction T with
  | leaf c f => intro pre; simp [HuffmanNode.leavesOf, pathCodes, treeCost]
  | internal g l r ihl ihr =>
      intro pre
      simp only [HuffmanNode.leavesOf, pathCodes, treeCost]
      rw [List.zip_append (by rw [pathCodes_length]),
        List.map_append, List.sum_append, ihl, ihr]
      simp

/-- Replacing each looked-up code by the aligned recorded code. -/
theorem sum_zip_eq_sum_map :
    ∀ (t : List (Nat × Nat)) (pcs table : List (Nat × List Bool)),
      t.map Prod.fst = pcs.map Prod.fst →
      (∀ p ∈ pcs, dictGet table p.1 = p.2) →
      (t.map (fun p => p.2 * (dictGet table p.1).length)).sum
        = ((t.zip pcs).map (fun q => q.1.2 * q.2.2.length)).sum := by
  intro t
  induction t with
  | nil => intro pcs table _ _; simp
  | cons p t ih =>
      intro pcs table hfst hget
      cases pcs with
      | nil => simp at hfst
      | cons q pcs' =>
          simp only [List.map_cons, List.cons.injEq] at hfst
          simp only [List.zip_cons_cons, List.map_cons, List.sum_cons]
          rw [ih pcs' table hfst.2 (fun r hr => hget r (List.mem_cons_of_mem _ hr)),
            hfst.1, hget q (by simp)]

/-- The total encoded bit length of the pipeline's own table equals the
greedy merge cost of the table's weights. -/
theorem huffman_cost_eq (t : List (Nat × Nat)) (hne : t ≠ [])
    (hnodup : (t.map Prod.fst).Nodup) :
    (t.map (fun p =>
        p.2 * (dictGet (build_encoding_table (build_huffman_tree t)) p.1).length)).sum
      = mergeCost (t.map Prod.snd) := by
  obtain ⟨root, hbt, hleaves, -⟩ := build_huffman_tree_struct t hne
  obtain ⟨root2, hbt2, hcost⟩ := build_huffman_tree_cost t hne
  rw [hbt] at hbt2
  injection hbt2 with hr
  subst hr
  have hkeysroot : (root.leavesOf.map Prod.fst).Nodup :=
    hnodup.perm (hleaves.map Prod.fst).symm
  have htable : build_encoding_table (build_huffman_tree t) = pathCodes root [] := by
    rw [hbt]
    exact build_encoding_table_eq_pathCodes root hkeysroot
  have hkeysPC : ((pathCodes root []).map Prod.fst).Nodup := by
    rw [pathCodes_fst]
    exact hkeysroot
  rw [htable, ← hcost]
  have hperm_sum : (t.map (fun p => p.2 * (dictGet (pathCodes root []) p.1).length)).sum
      = (root.leavesOf.map (fun p => p.2 * (dictGet (pathCodes root []) p.1).length)).sum :=
    ((hleaves.map _).sum_eq).symm
  rw [hperm_sum,
    sum_zip_eq_sum_map root.leavesOf (pathCodes root []) (pathCodes root [])
      (pathCodes_fst root []).symm
      (fun p hp => dictGet_of_mem_nodup _ hkeysPC p.1 p.2 hp),
    zip_cost root []]
  rfl

/-- Rearrangement for two entries: giving the longer word to the lighter
weight never costs more. -/
theorem rearrange_mul (a b c d : Nat) (hab : a ≤ b) (hcd : c ≤ d) :
    a * d + b * c ≤ a * c + b * d := by
  obtain ⟨e, rfl⟩ := Nat.le.dest hab
  obtain ⟨f, rfl⟩ := Nat.le.dest hcd
  ring_nf
  nlinarith

/-- With two distinct symbols around, no code is empty (the empty word is a
leading block of everything). -/
theorem code_ne_nil_of_pf (C : Nat → List Bool) (syms : List Nat)
    (hpf : noCodeStartsAnotherFn C syms) (c1 c2 : Nat) (h1 : c1 ∈ syms)
    (h2 : c2 ∈ syms) (hne : c1 ≠ c2) : C c1 ≠ [] := by
  intro hc
  have hfalse := hpf c1 h1 c2 h2 hne
  rw [hc] at hfalse
  have htrue : beginsWith (C c2) [] = true := (beginsWith_iff _ _).2 ⟨C c2, by simp⟩
  rw [htrue] at hfalse
  simp at hfalse

/-- Leading blocks compose. -/
theorem beginsWith_trans (w v u : List Bool) (h1 : beginsWith w v = true)
    (h2 : beginsWith v u = true) : beginsWith w u = true := by
  obtain ⟨s1, hs1⟩ := (beginsWith_iff w v).1 h1
  obtain ⟨s2, hs2⟩ := (beginsWith_iff v u).1 h2
  exact (beginsWith_iff w u).2 ⟨s2 ++ s1, by rw [← hs1, ← hs2, List.append_assoc]⟩

/-- Extraction of a best entry under any total transitive comparison. -/
theorem exists_best (better : (Nat × Nat) → (Nat × Nat) → Prop)
    (htot : ∀ a b, better a b ∨ better b a)
    (htrans : ∀ a b c, better a b → better b c → better a c) :
    ∀ (t : List (Nat × Nat)), t ≠ [] →
      ∃ e rest, t.Perm (e :: rest) ∧ ∀ p ∈ t, better e p := by
  intro t
  induction t with
  | nil => intro h; exact absurd rfl h
  | cons p t' ih =>
      intro _
      cases t' with
      | nil =>
          refine ⟨p, [], List.Perm.refl _, ?_⟩
          intro q hq
          simp only [List.mem_singleton] at hq
          subst hq
          rcases htot q q with h | h <;> exact h
      | cons p2 t'' =>
          obtain ⟨e', rest', hperm', hmin'⟩ := ih (by simp)
          rcases htot p e' with h | h
          · refine ⟨p, p2 :: t'', List.Perm.refl _, ?_⟩
            intro q hq
            rcases List.mem_cons.1 hq with rfl | hq'
            · rcases htot q q with hh | hh <;> exact hh
            · exact htrans p e' q h (hmin' q hq')
          · refine ⟨e', p :: rest', ?_, ?_⟩
            · exact (hperm'.cons p).trans (List.Perm.swap e' p rest')
            · intro q hq
              rcases List.mem_cons.1 hq with rfl | hq'
              · exact h
              · exact hmin' q hq'

/-- Transposition basics. -/
theorem swapSym_left (a b : Nat) : swapSym a b a = b := by
  simp [swapSym]

/-- Transposition basics. -/
theorem swapSym_right (a b : Nat) : swapSym a b b = a := by
  by_cases h : b = a
  · subst h
    simp [swapSym]
  · simp [swapSym, h]

/-- Transposition basics. -/
theorem swapSym_other (a b x : Nat) (h1 : x ≠ a) (h2 : x ≠ b) : swapSym a b x = x := by
  simp [swapSym, h1, h2]

/-- Transpositions stay within the symbol set. -/
theorem swapSym_mem (a b x : Nat) (syms : List Nat) (ha : a ∈ syms) (hb : b ∈ syms)
    (hx : x ∈ syms) : swapSym a b x ∈ syms := by
  unfold swapSym
  split_ifs <;> assumption

/-- Transpositions are injective. -/
theorem swapSym_inj (a b x y : Nat) (h : swapSym a b x = swapSym a b y) : x = y := by
  unfold swapSym at h
  split_ifs at h <;> omega

/-- Exchanging two symbols' codewords preserves prefix-freedom. -/
theorem pf_swapC (C : Nat → List Bool) (syms : List Nat) (a b : Nat)
    (ha : a ∈ syms) (hb : b ∈ syms) (hpf : noCodeStartsAnotherFn C syms) :
    noCodeStartsAnotherFn (swapC C a b) syms := by
  intro c1 h1 c2 h2 hne
  unfold swapC
  exact hpf (swapSym a b c1) (swapSym_mem a b c1 syms ha hb h1)
    (swapSym a b c2) (swapSym_mem a b c2 syms ha hb h2)
    (fun h => hne (swapSym_inj a b c1 c2 h))

/-- The sibling codeword has the same length. -/
theorem sibWord_length (w : List Bool) (hw : w ≠ []) :
    (sibWord w).length = w.length := by
  unfold sibWord
  have := List.length_pos.2 hw
  rw [List.length_append, List.length_dropLast]
  simp
  omega

/-- Every non-empty word is its leading block plus its last bit. -/
theorem dropLast_append_getLastD (w : List Bool) (hw : w ≠ []) :
    w.dropLast ++ [w.getLastD false] = w := by
  rw [List.getLastD_eq_getLast?, List.getLast?_eq_getLast w hw]
  exact List.dropLast_append_getLast hw

/-- The sibling differs from the word. -/
theorem sibWord_ne (w : List Bool) (hw : w ≠ []) : sibWord w ≠ w := by
  intro h
  have h2 := dropLast_append_getLastD w hw
  unfold sibWord at h
  have h3 : w.dropLast ++ [! w.getLastD false] = w.dropLast ++ [w.getLastD false] :=
    h.trans h2.symm
  have h4 := List.append_inj_right h3 rfl
  simp at h4

/-- A word starts with its own leading block. -/
theorem beginsWith_dropLast (w : List Bool) (hw : w ≠ []) :
    beginsWith w w.dropLast = true :=
  (beginsWith_iff _ _).2 ⟨[w.getLastD false], dropLast_append_getLastD w hw⟩

/-- A word of length at most `|w|` that starts with `w`'s leading block is
that block, `w` itself, or `w`'s sibling. -/
theorem block_cases (w v : List Bool) (hw : w ≠ [])
    (hbeg : beginsWith v w.dropLast = true) (hlen : v.length ≤ w.length) :
    v = w.dropLast ∨ v = w ∨ v = sibWord w := by
  obtain ⟨s, hs⟩ := (beginsWith_iff v w.dropLast).1 hbeg
  have hw1 : 1 ≤ w.length := List.length_pos.2 hw
  have hlq : w.dropLast.length + s.length = v.length := by
    rw [← hs]
    simp
  rw [List.length_dropLast] at hlq
  cases s with
  | nil =>
      left
      rw [← hs, List.append_nil]
  | cons b s' =>
      cases s' with
      | nil =>
          right
          by_cases hb : b = w.getLastD false
          · left
            rw [← hs, hb]
            exact dropLast_append_getLastD w hw
          · right
            rw [← hs]
            unfold sibWord
            have : b = ! w.getLastD false := by
              cases b <;> cases hgl : w.getLastD false <;> simp_all
            rw [this]
      | cons b2 s'' =>
          exfalso
          simp at hlq
          omega

/-- Every member is at most the running maximum. -/
theorem foldr_max_le : ∀ (l : List Nat) (x : Nat), x ∈ l →
    x ≤ l.foldr (fun a b => max a b) 0 := by
  intro l
  induction l with
  | nil => intro x hx; simp at hx
  | cons y l' ih =>
      intro x hx
      rcases List.mem_cons.1 hx with rfl | hx'
      · exact Nat.le_max_left _ _
      · exact le_trans (ih x hx') (Nat.le_max_right _ _)

/-- The fresh symbol is not a key of the table. -/
theorem freshSym_not_mem (t : List (Nat × Nat)) : freshSym t ∉ t.map Prod.fst := by
  intro hmem
  have := foldr_max_le (t.map Prod.fst) _ hmem
  unfold freshSym at this
  omega

/-- The merge cost of two weights is their sum. -/
theorem mergeCost_pair (a b : Nat) : mergeCost [a, b] = a + b := by
  unfold mergeCost
  by_cases h : a ≤ b
  · simp [List.insertionSort, List.orderedInsert, h, mergeCostGo]
  · simp only [List.insertionSort, List.orderedInsert, if_neg h, List.length_cons,
      List.length_nil]
    simp [mergeCostGo]
    omega

/-- Every word starts with itself. -/
theorem beginsWith_self (w : List Bool) : beginsWith w w = true :=
  (beginsWith_iff w w).2 ⟨[], List.append_nil w⟩

/-- Swapping a symbol with itself changes nothing. -/
theorem swapSym_same (a x : Nat) : swapSym a a x = x := by
  unfold swapSym
  split_ifs <;> omega

/-- Cost only looks at the code on the table's keys. -/
theorem codeCostF_congr (C1 C2 : Nat → List Bool) (t : List (Nat × Nat))
    (h : ∀ p ∈ t, C1 p.1 = C2 p.1) : codeCostF C1 t = codeCostF C2 t := by
  unfold codeCostF
  congr 1
  exact List.map_congr_left (fun p hp => by rw [h p hp])

/-- Cost is stable under reordering the table. -/
theorem codeCostF_perm (C : Nat → List Bool) (t1 t2 : List (Nat × Nat))
    (h : t1.Perm t2) : codeCostF C t1 = codeCostF C t2 :=
  (h.map _).sum_eq

/-- A length bound on codes survives a swap within the symbol set. -/
theorem hmax_swapC (C : Nat → List Bool) (syms : List Nat) (a b : Nat) (L : Nat)
    (ha : a ∈ syms) (hb : b ∈ syms) (h : ∀ c ∈ syms, (C c).length ≤ L) :
    ∀ c ∈ syms, ((swapC C a b) c).length ≤ L :=
  fun c hc => h _ (swapSym_mem a b c syms ha hb hc)

/-- Giving the longer codeword to the lighter entry never raises the cost. -/
theorem codeCostF_swap (C : Nat → List Bool) (rest : List (Nat × Nat)) (p q : Nat × Nat)
    (hnodup : ((p :: q :: rest).map Prod.fst).Nodup)
    (hw : p.2 ≤ q.2) (hl : (C p.1).length ≤ (C q.1).length) :
    codeCostF (swapC C p.1 q.1) (p :: q :: rest) ≤ codeCostF C (p :: q :: rest) := by
  unfold codeCostF
  simp only [List.map_cons, List.sum_cons]
  simp only [List.map_cons, List.nodup_cons, List.mem_cons, List.mem_map] at hnodup
  have hpq : p.1 ≠ q.1 := fun h => hnodup.1 (Or.inl h)
  have hrest : ∀ r ∈ rest, r.1 ≠ p.1 ∧ r.1 ≠ q.1 := by
    intro r hr
    constructor
    · intro h
      exact hnodup.1 (Or.inr ⟨r, hr, h⟩)
    · intro h
      exact hnodup.2.1 ⟨r, hr, h⟩
  have h1 : swapC C p.1 q.1 p.1 = C q.1 := by
    unfold swapC
    rw [swapSym_left]
  have h2 : swapC C p.1 q.1 q.1 = C p.1 := by
    unfold swapC
    rw [swapSym_right]
  have h3 : (rest.map (fun r => r.2 * ((swapC C p.1 q.1) r.1).length)).sum
      = (rest.map (fun r => r.2 * (C r.1).length)).sum := by
    congr 1
    refine List.map_congr_left (fun r hr => ?_)
    unfold swapC
    rw [swapSym_other _ _ _ (hrest r hr).1 (hrest r hr).2]
  rw [h1, h2, h3]
  have := rearrange_mul p.2 q.2 (C p.1).length (C q.1).length hw hl
  omega

/-- A swap exchanges code lengths among keys, so their total is unchanged. -/
theorem lenSum_swap (C : Nat → List Bool) (rest : List (Nat × Nat)) (p q : Nat × Nat)
    (hnodup : ((p :: q :: rest).map Prod.fst).Nodup) :
    ((p :: q :: rest).map (fun r => ((swapC C p.1 q.1) r.1).length)).sum
      = ((p :: q :: rest).map (fun r => (C r.1).length)).sum := by
  simp only [List.map_cons, List.sum_cons]
  simp only [List.map_cons, List.nodup_cons, List.mem_cons, List.mem_map] at hnodup
  have hrest : ∀ r ∈ rest, r.1 ≠ p.1 ∧ r.1 ≠ q.1 := by
    intro r hr
    constructor
    · intro h
      exact hnodup.1 (Or.inr ⟨r, hr, h⟩)
    · intro h
      exact hnodup.2.1 ⟨r, hr, h⟩
  have h1 : swapC C p.1 q.1 p.1 = C q.1 := by
    unfold swapC
    rw [swapSym_left]
  have h2 : swapC C p.1 q.1 q.1 = C p.1 := by
    unfold swapC
    rw [swapSym_right]
  have h3 : (rest.map (fun r => ((swapC C p.1 q.1) r.1).length)).sum
      = (rest.map (fun r => (C r.1).length)).sum := by
    congr 1
    refine List.map_congr_left (fun r hr => ?_)
    unfold swapC
    rw [swapSym_other _ _ _ (hrest r hr).1 (hrest r hr).2]
  rw [h1, h2, h3]
  omega

/-- Two distinct members can be brought to the front by a permutation. -/
theorem extract_pair (t : List (Nat × Nat)) (p q : Nat × Nat) (hp : p ∈ t) (hq : q ∈ t)
    (hne : p ≠ q) : ∃ rest, t.Perm (p :: q :: rest) := by
  obtain ⟨s1, s2, rfl⟩ := List.append_of_mem hp
  have h1 : (s1 ++ p :: s2).Perm (p :: (s1 ++ s2)) := List.perm_middle
  have hq1 : q ∈ s1 ++ s2 := by
    have := h1.subset hq
    rcases List.mem_cons.1 this with h | h
    · exact absurd h.symm hne
    · exact h
  obtain ⟨u1, u2, hu⟩ := List.append_of_mem hq1
  refine ⟨u1 ++ u2, h1.trans (List.Perm.cons p ?_)⟩
  rw [hu]
  exact List.perm_middle

/-- Shortening a longest codeword whose sibling is unused keeps the code
prefix-free. -/
theorem pf_shorten (C : Nat → List Bool) (syms : List Nat) (a : Nat) (ha : a ∈ syms)
    (hpf : noCodeStartsAnotherFn C syms) (hCa : C a ≠ [])
    (hmax : ∀ c ∈ syms, (C c).length ≤ (C a).length)
    (hnosib : ∀ c ∈ syms, c ≠ a → C c ≠ sibWord (C a)) :
    noCodeStartsAnotherFn (fun x => if x = a then (C a).dropLast else C x) syms := by
  intro c1 h1 c2 h2 hne
  show beginsWith (if c2 = a then (C a).dropLast else C c2)
      (if c1 = a then (C a).dropLast else C c1) = false
  by_cases hc1 : c1 = a
  · have hc2 : ¬ c2 = a := fun h => hne (hc1.trans h.symm)
    rw [if_neg hc2, if_pos hc1]
    by_contra hb
    have hb' : beginsWith (C c2) ((C a).dropLast) = true := by
      cases h : beginsWith (C c2) ((C a).dropLast)
      · exact absurd h hb
      · rfl
    rcases block_cases (C a) (C c2) hCa hb' (hmax c2 h2) with hcase | hcase | hcase
    · have hx : beginsWith (C a) (C c2) = true := by
        rw [hcase]
        exact beginsWith_dropLast (C a) hCa
      rw [hpf c2 h2 a ha hc2] at hx
      simp at hx
    · have hx : beginsWith (C a) (C c2) = true := by
        rw [hcase]
        exact beginsWith_self (C a)
      rw [hpf c2 h2 a ha hc2] at hx
      simp at hx
    · exact hnosib c2 h2 hc2 hcase
  · by_cases hc2 : c2 = a
    · rw [if_pos hc2, if_neg hc1]
      by_contra hb
      have hb' : beginsWith ((C a).dropLast) (C c1) = true := by
        cases h : beginsWith ((C a).dropLast) (C c1)
        · exact absurd h hb
        · rfl
      have hx : beginsWith (C a) (C c1) = true :=
        beginsWith_trans (C a) ((C a).dropLast) (C c1)
          (beginsWith_dropLast (C a) hCa) hb'
      have hne1 : c1 ≠ a := hc1
      rw [hpf c1 h1 a ha hne1] at hx
      simp at hx
    · rw [if_neg hc1, if_neg hc2]
      exact hpf c1 h1 c2 h2 hne

/-- Replacing a deepest sibling pair by a fresh symbol holding their common
leading block keeps the code prefix-free on the reduced symbol set. -/
theorem pf_merge (C : Nat → List Bool) (syms rest : List Nat) (a b fr : Nat)
    (ha : a ∈ syms) (hb : b ∈ syms) (hab : a ≠ b)
    (hrest : ∀ c ∈ rest, c ∈ syms ∧ c ≠ a ∧ c ≠ b)
    (hfr : ∀ c ∈ rest, c ≠ fr)
    (hpf : noCodeStartsAnotherFn C syms) (hCa : C a ≠ [])
    (hmax : ∀ c ∈ syms, (C c).length ≤ (C a).length)
    (hsib : C b = sibWord (C a)) :
    noCodeStartsAnotherFn (fun x => if x = fr then (C a).dropLast else C x) (fr :: rest) := by
  intro c1 h1 c2 h2 hne
  show beginsWith (if c2 = fr then (C a).dropLast else C c2)
      (if c1 = fr then (C a).dropLast else C c1) = false
  rcases List.mem_cons.1 h1 with hc1 | h1'
  · rcases List.mem_cons.1 h2 with hc2 | h2'
    · exact absurd (hc1.trans hc2.symm) hne
    · have hc2 : ¬ c2 = fr := hfr c2 h2'
      rw [if_neg hc2, if_pos hc1]
      obtain ⟨h2s, h2a, h2b⟩ := hrest c2 h2'
      by_contra hbad
      have hb' : beginsWith (C c2) ((C a).dropLast) = true := by
        cases h : beginsWith (C c2) ((C a).dropLast)
        · exact absurd h hbad
        · rfl
      rcases block_cases (C a) (C c2) hCa hb' (hmax c2 h2s) with hcase | hcase | hcase
      · have hx : beginsWith (C a) (C c2) = true := by
          rw [hcase]
          exact beginsWith_dropLast (C a) hCa
        rw [hpf c2 h2s a ha h2a] at hx
        simp at hx
      · have hx : beginsWith (C a) (C c2) = true := by
          rw [hcase]
          exact beginsWith_self (C a)
        rw [hpf c2 h2s a ha h2a] at hx
        simp at hx
      · have hx : beginsWith (C b) (C c2) = true := by
          rw [hcase, hsib]
          exact beginsWith_self _
        rw [hpf c2 h2s b hb h2b] at hx
        simp at hx
  · rcases List.mem_cons.1 h2 with hc2 | h2'
    · have hc1 : ¬ c1 = fr := hfr c1 h1'
      rw [if_pos hc2, if_neg hc1]
      obtain ⟨h1s, h1a, _⟩ := hrest c1 h1'
      by_contra hbad
      have hb' : beginsWith ((C a).dropLast) (C c1) = true := by
        cases h : beginsWith ((C a).dropLast) (C c1)
        · exact absurd h hbad
        · rfl
      have hx : beginsWith (C a) (C c1) = true :=
        beginsWith_trans (C a) ((C a).dropLast) (C c1)
          (beginsWith_dropLast (C a) hCa) hb'
      rw [hpf c1 h1s a ha h1a] at hx
      simp at hx
    · rw [if_neg (hfr c1 h1'), if_neg (hfr c2 h2')]
      exact hpf c1 (hrest c1 h1').1 c2 (hrest c2 h2').1 hne

/-- Shortening one codeword never raises the cost. -/
theorem codeCostF_shorten_le (C : Nat → List Bool) (t : List (Nat × Nat)) (a : Nat) :
    codeCostF (fun x => if x = a then (C a).dropLast else C x) t ≤ codeCostF C t := by
  unfold codeCostF
  refine List.sum_le_sum ?_
  intro p _
  show p.2 * (if p.1 = a then (C a).dropLast else C p.1).length ≤ p.2 * (C p.1).length
  by_cases h : p.1 = a
  · rw [if_pos h, h]
    refine Nat.mul_le_mul_left _ ?_
    rw [List.length_dropLast]
    omega
  · rw [if_neg h]

/-- Shortening the front entry's codeword drops the total code length by one. -/
theorem lenSum_shorten (C : Nat → List Bool) (t rest : List (Nat × Nat)) (e : Nat × Nat)
    (hperm : t.Perm (e :: rest)) (hnodup : ((e :: rest).map Prod.fst).Nodup)
    (hCe : C e.1 ≠ []) :
    (t.map (fun p => ((fun x => if x = e.1 then (C e.1).dropLast else C x) p.1).length)).sum + 1
      = (t.map (fun p => (C p.1).length)).sum := by
  rw [(hperm.map (fun p => ((fun x => if x = e.1 then (C e.1).dropLast else C x) p.1).length)).sum_eq]
  rw [(hperm.map (fun p => (C p.1).length)).sum_eq]
  simp only [List.map_cons, List.sum_cons]
  simp only [List.map_cons, List.nodup_cons, List.mem_cons, List.mem_map] at hnodup
  have hrest : (rest.map (fun p =>
      ((fun x => if x = e.1 then (C e.1).dropLast else C x) p.1).length)).sum
      = (rest.map (fun p => (C p.1).length)).sum := by
    congr 1
    refine List.map_congr_left (fun r hr => ?_)
    have : r.1 ≠ e.1 := fun h => hnodup.1 ⟨r, hr, h⟩
    simp only [if_neg this]
  rw [hrest]
  rw [if_true, List.length_dropLast]
  have : 1 ≤ (C e.1).length := by
    cases h : C e.1
    · exact absurd h hCe
    · simp [h]
  omega

/-- Swapping the codes of two table entries, lighter entry taking the longer
code, never raises the cost. -/
theorem codeCostF_swap_entries (C : Nat → List Bool) (t : List (Nat × Nat)) (p q : Nat × Nat)
    (hp : p ∈ t) (hq : q ∈ t) (hnodup : (t.map Prod.fst).Nodup)
    (hw : p.2 ≤ q.2) (hl : (C p.1).length ≤ (C q.1).length) :
    codeCostF (swapC C p.1 q.1) t ≤ codeCostF C t := by
  by_cases hkey : p.1 = q.1
  · refine le_of_eq (codeCostF_congr _ _ t ?_)
    intro r _
    unfold swapC
    rw [hkey, swapSym_same]
  · have hpq : p ≠ q := fun h => hkey (congrArg Prod.fst h)
    obtain ⟨rest, hperm⟩ := extract_pair t p q hp hq hpq
    have hnodup2 : ((p :: q :: rest).map Prod.fst).Nodup :=
      ((hperm.map Prod.fst).nodup_iff).1 hnodup
    calc codeCostF (swapC C p.1 q.1) t
        = codeCostF (swapC C p.1 q.1) (p :: q :: rest) := codeCostF_perm _ _ _ hperm
      _ ≤ codeCostF C (p :: q :: rest) := codeCostF_swap C rest p q hnodup2 hw hl
      _ = codeCostF C t := (codeCostF_perm _ _ _ hperm).symm

/-- Swapping two entries' codes leaves the total code length unchanged. -/
theorem lenSum_swap_entries (C : Nat → List Bool) (t : List (Nat × Nat)) (p q : Nat × Nat)
    (hp : p ∈ t) (hq : q ∈ t) (hnodup : (t.map Prod.fst).Nodup) :
    (t.map (fun r => ((swapC C p.1 q.1) r.1).length)).sum
      = (t.map (fun r => (C r.1).length)).sum := by
  by_cases hkey : p.1 = q.1
  · congr 1
    refine List.map_congr_left (fun r _ => ?_)
    unfold swapC
    rw [hkey, swapSym_same]
  · have hpq : p ≠ q := fun h => hkey (congrArg Prod.fst h)
    obtain ⟨rest, hperm⟩ := extract_pair t p q hp hq hpq
    have hnodup2 : ((p :: q :: rest).map Prod.fst).Nodup :=
      ((hperm.map Prod.fst).nodup_iff).1 hnodup
    rw [(hperm.map (fun r => ((swapC C p.1 q.1) r.1).length)).sum_eq]
    rw [(hperm.map (fun r => (C r.1).length)).sum_eq]
    exact lenSum_swap C rest p q hnodup2

/-- Cost bookkeeping for replacing a sibling pair at depth `L` by one entry
at depth `L - 1`. -/
theorem merge_arith (u v L S : Nat) (hL : 1 ≤ L) :
    u * L + (v * L + S) = (u + v) * (L - 1) + S + (u + v) := by
  have h : L - 1 + 1 = L := by omega
  calc u * L + (v * L + S) = (u + v) * L + S := by
        rw [Nat.add_mul]
        omega
    _ = (u + v) * ((L - 1) + 1) + S := by rw [h]
    _ = (u + v) * (L - 1) + (u + v) + S := by rw [Nat.mul_add, Nat.mul_one]
    _ = (u + v) * (L - 1) + S + (u + v) := by omega

/-- Huffman lower bound: the greedy merge cost never exceeds the cost of any
prefix-free code, by induction on table size plus total code length. -/
theorem mergeCost_le_codeCostF :
    ∀ (N : Nat) (t : List (Nat × Nat)) (C : Nat → List Bool),
      t.length + (t.map (fun p => (C p.1).length)).sum ≤ N →
      2 ≤ t.length → (t.map Prod.fst).Nodup →
      noCodeStartsAnotherFn C (t.map Prod.fst) →
      mergeCost (t.map Prod.snd) ≤ codeCostF C t := by
  intro N
  induction N with
  | zero =>
      intro t C hm h2 _ _
      omega
  | succ N ih =>
      intro t C hm h2 hnodup hpf
      by_cases h3 : 3 ≤ t.length
      · -- main step: at least three entries
        have hne : t ≠ [] := by
          intro h
          rw [h] at h2
          simp at h2
        obtain ⟨e1, rest1, hperm1, hmin1⟩ :=
          exists_best (fun a b => a.2 ≤ b.2) (fun a b => Nat.le_total a.2 b.2)
            (fun a b c hab hbc => Nat.le_trans hab hbc) t hne
        have hlen1 : t.length = rest1.length + 1 := by simpa using hperm1.length_eq
        have hrest1ne : rest1 ≠ [] := by
          intro h
          rw [h] at hlen1
          simp at hlen1
          omega
        obtain ⟨e2, rest2, hperm2, hmin2⟩ :=
          exists_best (fun a b => a.2 ≤ b.2) (fun a b => Nat.le_total a.2 b.2)
            (fun a b c hab hbc => Nat.le_trans hab hbc) rest1 hrest1ne
        have hperm12 : t.Perm (e1 :: e2 :: rest2) := hperm1.trans (hperm2.cons e1)
        have he1t : e1 ∈ t := hperm1.symm.subset (List.mem_cons_self _ _)
        have he2t : e2 ∈ t :=
          hperm12.symm.subset (List.mem_cons_of_mem _ (List.mem_cons_self _ _))
        have he1k : e1.1 ∈ t.map Prod.fst := List.mem_map_of_mem _ he1t
        have he2k : e2.1 ∈ t.map Prod.fst := List.mem_map_of_mem _ he2t
        have hnodup12 : ((e1 :: e2 :: rest2).map Prod.fst).Nodup :=
          ((hperm12.map Prod.fst).nodup_iff).1 hnodup
        have hne12 : e1.1 ≠ e2.1 := by
          have h12 := hnodup12
          rw [List.map_cons, List.map_cons, List.nodup_cons] at h12
          exact fun heq => h12.1 (by rw [heq]; exact List.mem_cons_self _ _)
        obtain ⟨em, restm, hpermm, hmaxm⟩ :=
          exists_best (fun a b => (C b.1).length ≤ (C a.1).length)
            (fun a b => Nat.le_total (C b.1).length (C a.1).length)
            (fun a b c hab hbc => Nat.le_trans hbc hab) t hne
        have hemt : em ∈ t := hpermm.symm.subset (List.mem_cons_self _ _)
        have hemk : em.1 ∈ t.map Prod.fst := List.mem_map_of_mem _ hemt
        have hmaxk : ∀ c ∈ t.map Prod.fst, (C c).length ≤ (C em.1).length := by
          intro c hc
          obtain ⟨p, hp, rfl⟩ := List.mem_map.1 hc
          exact hmaxm p hp
        have hCem : C em.1 ≠ [] := by
          by_cases h : em.1 = e1.1
          · refine code_ne_nil_of_pf C (t.map Prod.fst) hpf em.1 e2.1 hemk he2k ?_
            rw [h]
            exact hne12
          · exact code_ne_nil_of_pf C (t.map Prod.fst) hpf em.1 e1.1 hemk he1k h
        -- first swap: give the lightest entry the longest codeword
        have hpf1 : noCodeStartsAnotherFn (swapC C e1.1 em.1) (t.map Prod.fst) :=
          pf_swapC C (t.map Prod.fst) e1.1 em.1 he1k hemk hpf
        have hC1e1 : swapC C e1.1 em.1 e1.1 = C em.1 := by
          unfold swapC
          rw [swapSym_left]
        have hcost1 : codeCostF (swapC C e1.1 em.1) t ≤ codeCostF C t :=
          codeCostF_swap_entries C t e1 em he1t hemt hnodup (hmin1 em hemt) (hmaxm e1 he1t)
        have hlen1eq : (t.map (fun r => ((swapC C e1.1 em.1) r.1).length)).sum
            = (t.map (fun r => (C r.1).length)).sum :=
          lenSum_swap_entries C t e1 em he1t hemt hnodup
        have hmax1k : ∀ c ∈ t.map Prod.fst,
            ((swapC C e1.1 em.1) c).length ≤ ((swapC C e1.1 em.1) e1.1).length := by
          intro c hc
          rw [hC1e1]
          exact hmaxk _ (swapSym_mem e1.1 em.1 c _ he1k hemk hc)
        have hC1e1ne : swapC C e1.1 em.1 e1.1 ≠ [] := by
          rw [hC1e1]
          exact hCem
        set C1 := swapC C e1.1 em.1 with hC1def
        by_cases hsib : ∃ c ∈ t.map Prod.fst, c ≠ e1.1 ∧ C1 c = sibWord (C1 e1.1)
        · -- a sibling of the longest codeword is in use: merge the pair
          obtain ⟨cs, hcsk, hcse1, hcssib⟩ := hsib
          obtain ⟨ps, hpst, hpseq⟩ := List.mem_map.1 hcsk
          subst hpseq
          have hpsr1 : ps ∈ rest1 := by
            have hmem := hperm1.subset hpst
            rcases List.mem_cons.1 hmem with h | h
            · exact absurd (congrArg Prod.fst h) hcse1
            · exact h
          have hpsk : ps.1 ∈ t.map Prod.fst := List.mem_map_of_mem _ hpst
          have he1ps : e1.1 ≠ ps.1 := fun h => hcse1 h.symm
          have hsibln : (C1 ps.1).length = (C1 e1.1).length := by
            rw [hcssib]
            exact sibWord_length _ hC1e1ne
          have hcost2 : codeCostF (swapC C1 e2.1 ps.1) t ≤ codeCostF C1 t :=
            codeCostF_swap_entries C1 t e2 ps he2t hpst hnodup (hmin2 ps hpsr1)
              (by rw [hsibln]; exact hmax1k e2.1 he2k)
          have hC2e1 : swapC C1 e2.1 ps.1 e1.1 = C1 e1.1 := by
            show C1 (swapSym e2.1 ps.1 e1.1) = C1 e1.1
            rw [swapSym_other e2.1 ps.1 e1.1 hne12 he1ps]
          have hC2e2 : swapC C1 e2.1 ps.1 e2.1 = sibWord (swapC C1 e2.1 ps.1 e1.1) := by
            rw [hC2e1]
            show C1 (swapSym e2.1 ps.1 e2.1) = sibWord (C1 e1.1)
            rw [swapSym_left]
            exact hcssib
          have hpf2 : noCodeStartsAnotherFn (swapC C1 e2.1 ps.1) (t.map Prod.fst) :=
            pf_swapC C1 (t.map Prod.fst) e2.1 ps.1 he2k hpsk hpf1
          have hmax2k : ∀ c ∈ t.map Prod.fst,
              ((swapC C1 e2.1 ps.1) c).length ≤ ((swapC C1 e2.1 ps.1) e1.1).length := by
            intro c hc
            rw [hC2e1]
            show (C1 (swapSym e2.1 ps.1 c)).length ≤ (C1 e1.1).length
            have := hmax1k _ (swapSym_mem e2.1 ps.1 c _ he2k hpsk hc)
            exact this
          have hlen2eq : (t.map (fun r => ((swapC C1 e2.1 ps.1) r.1).length)).sum
              = (t.map (fun r => (C1 r.1).length)).sum :=
            lenSum_swap_entries C1 t e2 ps he2t hpst hnodup
          have hC2e1ne : swapC C1 e2.1 ps.1 e1.1 ≠ [] := by
            rw [hC2e1]
            exact hC1e1ne
          set C2 := swapC C1 e2.1 ps.1 with hC2def
          have hfrk : freshSym t ∉ t.map Prod.fst := freshSym_not_mem t
          have hL1 : 1 ≤ (C2 e1.1).length := by
            cases h : C2 e1.1
            · exact absurd h hC2e1ne
            · simp [h]
          have hrest2 : ∀ c ∈ rest2.map Prod.fst,
              c ∈ t.map Prod.fst ∧ c ≠ e1.1 ∧ c ≠ e2.1 := by
            intro c hc
            have hmem : c ∈ (e1 :: e2 :: rest2).map Prod.fst := by
              simp only [List.map_cons, List.mem_cons]
              exact Or.inr (Or.inr hc)
            refine ⟨(hperm12.map Prod.fst).symm.subset hmem, ?_, ?_⟩
            · intro h
              have h12 := hnodup12
              rw [List.map_cons, List.map_cons, List.nodup_cons] at h12
              exact h12.1 (by rw [← h]; exact List.mem_cons_of_mem _ hc)
            · intro h
              have h12 := hnodup12
              rw [List.map_cons, List.map_cons, List.nodup_cons, List.nodup_cons] at h12
              exact h12.2.1 (by rw [← h]; exact hc)
          have hfr2 : ∀ c ∈ rest2.map Prod.fst, c ≠ freshSym t := by
            intro c hc h
            exact hfrk (by rw [← h]; exact (hrest2 c hc).1)
          have hpfmerge : noCodeStartsAnotherFn
              (fun x => if x = freshSym t then (C2 e1.1).dropLast else C2 x)
              (freshSym t :: rest2.map Prod.fst) :=
            pf_merge C2 (t.map Prod.fst) (rest2.map Prod.fst) e1.1 e2.1 (freshSym t)
              he1k he2k hne12 hrest2 hfr2 hpf2 hC2e1ne hmax2k hC2e2
          have ht'keys : (((freshSym t, e1.2 + e2.2) :: rest2).map Prod.fst)
              = freshSym t :: rest2.map Prod.fst := by
            simp
          have hnodup' : ((((freshSym t, e1.2 + e2.2) :: rest2)).map Prod.fst).Nodup := by
            rw [ht'keys, List.nodup_cons]
            constructor
            · intro h
              exact hfrk ((hrest2 _ h).1)
            · have h12 := hnodup12
              rw [List.map_cons, List.map_cons, List.nodup_cons, List.nodup_cons] at h12
              exact h12.2.2
          have hlent : t.length = rest2.length + 2 := by simpa using hperm12.length_eq
          have hlen' : 2 ≤ ((freshSym t, e1.2 + e2.2) :: rest2).length := by
            simp only [List.length_cons]
            omega
          have hsum12 : (t.map (fun r => (C2 r.1).length)).sum
              = (C2 e1.1).length + (C2 e2.1).length
                + (rest2.map (fun r => (C2 r.1).length)).sum := by
            rw [(hperm12.map (fun r => (C2 r.1).length)).sum_eq]
            simp only [List.map_cons, List.sum_cons]
            omega
          have hrestlen : (rest2.map (fun p =>
              ((fun x => if x = freshSym t then (C2 e1.1).dropLast else C2 x) p.1).length)).sum
              = (rest2.map (fun p => (C2 p.1).length)).sum := by
            congr 1
            refine List.map_congr_left (fun r hr => ?_)
            have hner : r.1 ≠ freshSym t := hfr2 r.1 (List.mem_map_of_mem _ hr)
            show (if r.1 = freshSym t then (C2 e1.1).dropLast else C2 r.1).length
                = (C2 r.1).length
            rw [if_neg hner]
          have hm' : ((freshSym t, e1.2 + e2.2) :: rest2).length
              + ((((freshSym t, e1.2 + e2.2) :: rest2)).map (fun p =>
                  ((fun x => if x = freshSym t then (C2 e1.1).dropLast else C2 x) p.1).length)).sum
              ≤ N := by
            simp only [List.map_cons, List.sum_cons, List.length_cons]
            rw [if_true, List.length_dropLast, hrestlen]
            have hE2 : (C2 e2.1).length = (C2 e1.1).length := by
              rw [hC2e2]
              rw [hC2e1]
              exact sibWord_length _ hC1e1ne
            omega
          have hIH := ih ((freshSym t, e1.2 + e2.2) :: rest2)
            (fun x => if x = freshSym t then (C2 e1.1).dropLast else C2 x)
            hm' hlen' hnodup' (by rw [ht'keys]; exact hpfmerge)
          have hwperm : (t.map Prod.snd).Perm (e1.2 :: e2.2 :: rest2.map Prod.snd) := by
            have h := hperm12.map Prod.snd
            simpa using h
          have hmcstep : mergeCost (t.map Prod.snd)
              = e1.2 + e2.2 + mergeCost ((e1.2 + e2.2) :: rest2.map Prod.snd) := by
            refine mergeCost_step (t.map Prod.snd) (rest2.map Prod.snd) e1.2 e2.2 hwperm ?_ ?_
            · intro x hx
              obtain ⟨p, hp, rfl⟩ := List.mem_map.1 hx
              exact hmin1 p hp
            · intro x hx
              rcases List.mem_cons.1 hx with heq | hx'
              · rw [heq]
              · obtain ⟨p, hp, rfl⟩ := List.mem_map.1 hx'
                exact hmin2 p (hperm2.symm.subset (List.mem_cons_of_mem _ hp))
          have ht'snd : (((freshSym t, e1.2 + e2.2) :: rest2)).map Prod.snd
              = (e1.2 + e2.2) :: rest2.map Prod.snd := by
            simp
          have hcostrest : (rest2.map (fun p => p.2 *
              ((fun x => if x = freshSym t then (C2 e1.1).dropLast else C2 x) p.1).length)).sum
              = (rest2.map (fun p => p.2 * (C2 p.1).length)).sum := by
            congr 1
            refine List.map_congr_left (fun r hr => ?_)
            have hner : r.1 ≠ freshSym t := hfr2 r.1 (List.mem_map_of_mem _ hr)
            show r.2 * (if r.1 = freshSym t then (C2 e1.1).dropLast else C2 r.1).length
                = r.2 * (C2 r.1).length
            rw [if_neg hner]
          have hcostid : codeCostF C2 t
              = codeCostF (fun x => if x = freshSym t then (C2 e1.1).dropLast else C2 x)
                  ((freshSym t, e1.2 + e2.2) :: rest2) + (e1.2 + e2.2) := by
            rw [codeCostF_perm C2 t _ hperm12]
            unfold codeCostF
            simp only [List.map_cons, List.sum_cons]
            rw [if_true, List.length_dropLast, hcostrest]
            have hE2 : (C2 e2.1).length = (C2 e1.1).length := by
              rw [hC2e2]
              rw [hC2e1]
              exact sibWord_length _ hC1e1ne
            rw [hE2]
            exact merge_arith e1.2 e2.2 (C2 e1.1).length
              ((rest2.map (fun p => p.2 * (C2 p.1).length)).sum) hL1
          calc mergeCost (t.map Prod.snd)
              = e1.2 + e2.2 + mergeCost ((e1.2 + e2.2) :: rest2.map Prod.snd) := hmcstep
            _ = e1.2 + e2.2
                + mergeCost ((((freshSym t, e1.2 + e2.2) :: rest2)).map Prod.snd) := by
                rw [ht'snd]
            _ ≤ e1.2 + e2.2
                + codeCostF (fun x => if x = freshSym t then (C2 e1.1).dropLast else C2 x)
                    ((freshSym t, e1.2 + e2.2) :: rest2) := Nat.add_le_add_left hIH _
            _ = codeCostF C2 t := by rw [hcostid]; omega
            _ ≤ codeCostF C1 t := hcost2
            _ ≤ codeCostF C t := hcost1
        · -- the sibling of the longest codeword is unused: shorten it
          push_neg at hsib
          have hpfS : noCodeStartsAnotherFn
              (fun x => if x = e1.1 then (C1 e1.1).dropLast else C1 x) (t.map Prod.fst) :=
            pf_shorten C1 (t.map Prod.fst) e1.1 he1k hpf1 hC1e1ne hmax1k hsib
          have hnodup1 : ((e1 :: rest1).map Prod.fst).Nodup :=
            ((hperm1.map Prod.fst).nodup_iff).1 hnodup
          have hlenS : (t.map (fun p =>
              ((fun x => if x = e1.1 then (C1 e1.1).dropLast else C1 x) p.1).length)).sum + 1
              = (t.map (fun p => (C1 p.1).length)).sum :=
            lenSum_shorten C1 t rest1 e1 hperm1 hnodup1 hC1e1ne
          have hmS : t.length + (t.map (fun p =>
              ((fun x => if x = e1.1 then (C1 e1.1).dropLast else C1 x) p.1).length)).sum
              ≤ N := by
            omega
          have hIH := ih t (fun x => if x = e1.1 then (C1 e1.1).dropLast else C1 x)
            hmS h2 hnodup hpfS
          calc mergeCost (t.map Prod.snd)
              ≤ codeCostF (fun x => if x = e1.1 then (C1 e1.1).dropLast else C1 x) t := hIH
            _ ≤ codeCostF C1 t := codeCostF_shorten_le C1 t e1.1
            _ ≤ codeCostF C t := hcost1
      · -- exactly two entries
        have hlen2 : t.length = 2 := by omega
        obtain ⟨p1, p2, rfl⟩ := List.length_eq_two.1 hlen2
        have hnodup2 : ¬ p1.1 = p2.1 := by
          simp [List.nodup_cons] at hnodup
          exact hnodup
        have hm1 : p1.1 ∈ ([p1, p2].map Prod.fst) := by simp
        have hm2 : p2.1 ∈ ([p1, p2].map Prod.fst) := by simp
        have hne1 : C p1.1 ≠ [] := code_ne_nil_of_pf C _ hpf p1.1 p2.1 hm1 hm2 hnodup2
        have hne2 : C p2.1 ≠ [] :=
          code_ne_nil_of_pf C _ hpf p2.1 p1.1 hm2 hm1 (fun h => hnodup2 h.symm)
        have hl1 : 1 ≤ (C p1.1).length := by
          cases h : C p1.1
          · exact absurd h hne1
          · simp [h]
        have hl2 : 1 ≤ (C p2.1).length := by
          cases h : C p2.1
          · exact absurd h hne2
          · simp [h]
        have hmul1 : p1.2 * 1 ≤ p1.2 * (C p1.1).length := Nat.mul_le_mul_left _ hl1
        have hmul2 : p2.2 * 1 ≤ p2.2 * (C p2.1).length := Nat.mul_le_mul_left _ hl2
        have hmc : mergeCost ([p1, p2].map Prod.snd) = p1.2 + p2.2 := by
          simp only [List.map_cons, List.map_nil]
          exact mergeCost_pair p1.2 p2.2
        rw [hmc]
        unfold codeCostF
        simp only [List.map_cons, List.map_nil, List.sum_cons, List.sum_nil]
        omega

/-- C8: for every frequency table with at least two distinct symbols, the
total encoded bit length Σ frequency(s) × length(code(s)) of the code table
produced by build_encoding_table (build_huffman_tree t) is minimal among all
prefix-free binary codes for that frequency distribution. -/
theorem C8_huffman_optimal (t : List (Nat × Nat)) (C : Nat → List Bool)
    (h2 : 2 ≤ t.length) (hnodup : (t.map Prod.fst).Nodup)
    (hpf : noCodeStartsAnotherFn C (t.map Prod.fst)) :
    codeCostF (fun s => dictGet (build_encoding_table (build_huffman_tree t)) s) t
      ≤ codeCostF C t := by
  have hne : t ≠ [] := by
    intro h
    rw [h] at h2
    simp at h2
  have h1 : codeCostF (fun s => dictGet (build_encoding_table (build_huffman_tree t)) s) t
      = mergeCost (t.map Prod.snd) := by
    unfold codeCostF
    exact huffman_cost_eq t hne hnodup
  rw [h1]
  exact mergeCost_le_codeCostF
    (t.length + (t.map (fun p => (C p.1).length)).sum) t C (le_refl _) h2 hnodup hpf

/-- Witness for C8: the optimality theorem applied at the frequency table of
b"aaabb" against the explicit prefix-free code a ↦ 0, b ↦ 1. -/
theorem C8_huffman_optimal_witness :
    (2 ≤ ([(97, 3), (98, 2)] : List (Nat × Nat)).length
        ∧ (([(97, 3), (98, 2)] : List (Nat × Nat)).map Prod.fst).Nodup
        ∧ noCodeStartsAnotherFn (fun s => if s = 97 then [false] else [true])
            (([(97, 3), (98, 2)] : List (Nat × Nat)).map Prod.fst))
    ∧ codeCostF (fun s => dictGet (build_encoding_table
          (build_huffman_tree [(97, 3), (98, 2)])) s) [(97, 3), (98, 2)]
        ≤ codeCostF (fun s => if s = 97 then [false] else [true]) [(97, 3), (98, 2)] :=
  ⟨⟨by decide, by decide, by unfold noCodeStartsAnotherFn; decide⟩,
    C8_huffman_optimal [(97, 3), (98, 2)] (fun s => if s = 97 then [false] else [true])
      (by decide) (by decide) (by unfold noCodeStartsAnotherFn; decide)⟩
